import Mathlib

/-!
Verification development for the core of the skitter interpreter: a shallow
embedding of the bytecode compiler, the closure-lowering transformation, the
monomorphization caches and the trait-resolution engine, with theorems about
the behaviours the documentation ascribes to them.

Sources embedded: `src/closure.rs`, `src/items.rs`, `src/vm/vm.rs`,
`src/bytecode_compiler.rs`.  The type context (`types.rs`), the builtin-trait
table (`builtins.rs`) and the instruction-selection helpers
(`bytecode_select`) are not part of the source tree; where the embedding needs
them they are modelled from the specification and clearly marked as such.
-/

namespace Skitter


/-- `Slot::offset_by(n)`; a slot (`Slot(u32)` in `src/vm/instr.rs`) is a byte
offset within the current call frame, represented here as a plain natural.
Slots are offset by signed amounts during field addressing; negative results
cannot occur in the compiled fragments we study, so the clamp of `Int.toNat`
is inert there. -/
def Slot.offsetBy (s : Nat) (n : Int) : Nat := ((s : Int) + n).toNat

/-- `crate::abi::align` (the module is not under `src/`).  Modelled from the
spec: "advance top to the next multiple of the type's alignment". -/
def alignUp (x a : Nat) : Nat := (x + a - 1) / a * a

/-! ## The type model

`types.rs` is not under `src/`.  Modelled from the spec: a `Type` has a
`kind` drawn from the closed set listed in §3 (integer, float, bool, char,
never, tuple, array, slice, ref, raw pointer, ADT, function definition,
closure, parameter, ...), and a substitution list is an ordered list of
lifetime / type / const substitutions.  The constructor names follow the
`TypeKind` variants that `src/items.rs` matches on; the source's `Sub` enum
is rendered `Subst` because Lean's core subtraction class occupies the name.
Mutual inductives are used instead of nested `List`s so that every traversal
is structural. -/

mutual
inductive Ty where
  | Int (size : Nat) (signed : Bool)
  | Float (size : Nat)
  | Bool
  | Char
  | Never
  | Tuple (children : TyL)
  | Array (elem : Ty) (len : Nat)
  | Slice (elem : Ty)
  | StringSlice
  | Ref (tgt : Ty) (mutbl : Bool)
  | Ptr (tgt : Ty) (mutbl : Bool)
  | Adt (itemId : Nat) (subs : SubL)
  | FunctionDef (itemId : Nat) (subs : SubL)
  | Closure (closureId : Nat) (subs : SubL)
  | Param (n : Nat)

inductive Subst where
  | Type (t : Ty)
  | Lifetime
  | Const (n : Nat)

inductive TyL where
  | nil
  | cons (hd : Ty) (tl : TyL)

inductive SubL where
  | nil
  | cons (hd : Subst) (tl : SubL)
end

def TyL.length : TyL → Nat
  | .nil => 0
  | .cons _ tl => 1 + tl.length

def SubL.length : SubL → Nat
  | .nil => 0
  | .cons _ tl => 1 + tl.length

/-- The `N`th element of a substitution list. -/
def SubL.get? : SubL → Nat → Option Subst
  | .nil, _ => none
  | .cons hd _, 0 => some hd
  | .cons _ tl, n + 1 => tl.get? n

mutual
/-- Structural equality test; models the interned pointer equality (`==`)
of the source's `Type` values. -/
def Ty.beq : Ty → Ty → Bool
  | .Int s₁ g₁, .Int s₂ g₂ => s₁ == s₂ && g₁ == g₂
  | .Float s₁, .Float s₂ => s₁ == s₂
  | .Bool, .Bool => true
  | .Char, .Char => true
  | .Never, .Never => true
  | .Tuple c₁, .Tuple c₂ => TyL.beq c₁ c₂
  | .Array e₁ l₁, .Array e₂ l₂ => Ty.beq e₁ e₂ && l₁ == l₂
  | .Slice e₁, .Slice e₂ => Ty.beq e₁ e₂
  | .StringSlice, .StringSlice => true
  | .Ref t₁ m₁, .Ref t₂ m₂ => Ty.beq t₁ t₂ && m₁ == m₂
  | .Ptr t₁ m₁, .Ptr t₂ m₂ => Ty.beq t₁ t₂ && m₁ == m₂
  | .Adt i₁ s₁, .Adt i₂ s₂ => i₁ == i₂ && SubL.beq s₁ s₂
  | .FunctionDef i₁ s₁, .FunctionDef i₂ s₂ => i₁ == i₂ && SubL.beq s₁ s₂
  | .Closure i₁ s₁, .Closure i₂ s₂ => i₁ == i₂ && SubL.beq s₁ s₂
  | .Param n₁, .Param n₂ => n₁ == n₂
  | _, _ => false

def Subst.beq : Subst → Subst → Bool
  | .Type t₁, .Type t₂ => Ty.beq t₁ t₂
  | .Lifetime, .Lifetime => true
  | .Const n₁, .Const n₂ => n₁ == n₂
  | _, _ => false

def TyL.beq : TyL → TyL → Bool
  | .nil, .nil => true
  | .cons h₁ t₁, .cons h₂ t₂ => Ty.beq h₁ h₂ && TyL.beq t₁ t₂
  | _, _ => false

def SubL.beq : SubL → SubL → Bool
  | .nil, .nil => true
  | .cons h₁ t₁, .cons h₂ t₂ => Subst.beq h₁ h₂ && SubL.beq t₁ t₂
  | _, _ => false
end


mutual
/-- Modelled from the spec: "substituting a list into a type with parameter
`N` replaces it with the `N`th element of the list."  A parameter that the
list does not cover is left in place (the real code treats this as an
internal error; the theorems below always supply covering lists). -/
def Ty.sub (t : Ty) (subs : SubL) : Ty :=
  match t with
  | .Int s sg => .Int s sg
  | .Float s => .Float s
  | .Bool => .Bool
  | .Char => .Char
  | .Never => .Never
  | .Tuple children => .Tuple (children.sub subs)
  | .Array elem len => .Array (elem.sub subs) len
  | .Slice elem => .Slice (elem.sub subs)
  | .StringSlice => .StringSlice
  | .Ref tgt m => .Ref (tgt.sub subs) m
  | .Ptr tgt m => .Ptr (tgt.sub subs) m
  | .Adt i s => .Adt i (s.sub subs)
  | .FunctionDef i s => .FunctionDef i (s.sub subs)
  | .Closure i s => .Closure i (s.sub subs)
  | .Param n =>
    match subs.get? n with
    | some (.Type t) => t
    | _ => .Param n

def Subst.subst (s : Subst) (subs : SubL) : Subst :=
  match s with
  | .Type t => .Type (t.sub subs)
  | .Lifetime => .Lifetime
  | .Const n => .Const n

def TyL.sub (l : TyL) (subs : SubL) : TyL :=
  match l with
  | .nil => .nil
  | .cons hd tl => .cons (hd.sub subs) (tl.sub subs)

def SubL.sub (l : SubL) (subs : SubL) : SubL :=
  match l with
  | .nil => .nil
  | .cons hd tl => .cons (hd.subst subs) (tl.sub subs)
end

mutual
/-- Modelled from the spec: a substitution list is concrete when it contains
"no parameter placeholders" (`SubList::is_concrete`). -/
def Ty.isConcrete : Ty → Bool
  | .Int _ _ | .Float _ | .Bool | .Char | .Never | .StringSlice => true
  | .Tuple children => children.isConcrete
  | .Array elem _ => elem.isConcrete
  | .Slice elem => elem.isConcrete
  | .Ref tgt _ => tgt.isConcrete
  | .Ptr tgt _ => tgt.isConcrete
  | .Adt _ s => s.isConcrete
  | .FunctionDef _ s => s.isConcrete
  | .Closure _ s => s.isConcrete
  | .Param _ => false

def Subst.isConcrete : Subst → Bool
  | .Type t => t.isConcrete
  | .Lifetime => true
  | .Const _ => true

def TyL.isConcrete : TyL → Bool
  | .nil => true
  | .cons hd tl => hd.isConcrete && tl.isConcrete

def SubL.isConcrete : SubL → Bool
  | .nil => true
  | .cons hd tl => hd.isConcrete && tl.isConcrete
end

mutual
/-- Every type parameter mentioned in the type is covered by a type entry of
the substitution list `subs` (well-formedness of the input to `Ty.sub`). -/
def Ty.substOk (t : Ty) (subs : SubL) : Bool :=
  match t with
  | .Int _ _ | .Float _ | .Bool | .Char | .Never | .StringSlice => true
  | .Tuple children => children.substOk subs
  | .Array elem _ => elem.substOk subs
  | .Slice elem => elem.substOk subs
  | .Ref tgt _ => tgt.substOk subs
  | .Ptr tgt _ => tgt.substOk subs
  | .Adt _ s => SubL.substOk s subs
  | .FunctionDef _ s => SubL.substOk s subs
  | .Closure _ s => SubL.substOk s subs
  | .Param n =>
    match subs.get? n with
    | some (.Type _) => true
    | _ => false

def Subst.substOk (s : Subst) (subs : SubL) : Bool :=
  match s with
  | .Type t => t.substOk subs
  | .Lifetime => true
  | .Const _ => true

def TyL.substOk (l : TyL) (subs : SubL) : Bool :=
  match l with
  | .nil => true
  | .cons hd tl => hd.substOk subs && tl.substOk subs

def SubL.substOk (l : SubL) (subs : SubL) : Bool :=
  match l with
  | .nil => true
  | .cons hd tl => Subst.substOk hd subs && SubL.substOk tl subs
end


/-! ## The instruction set

`src/vm/instr.rs` in the tree is an older revision of the instruction enum:
it lacks the indirect-call and memory/layout variants (`CallPtr`,
`VTableFunc`, `PointerOffset2`, `PointerOffset3`, `IndexCalc`,
`IndexCalcDyn`, `IndexCalcEndPointer`, `ArrayRepeat`, `MemCompare`, and the
`Skipped` placeholder) that `src/bytecode_compiler.rs` constructs.  The
enum below is therefore modelled from the spec's instruction enumeration
(§6) together with those call sites; the per-width arithmetic families are
compressed into parameterized constructors, and the comparison instruction
returned by the (absent) `bytecode_select::binary` helper is modelled as a
`Cmp` carrying the operator and operand type it was selected for. -/

inductive BinOp where
  | Eq
  | Lt
  | LtEq
  deriving DecidableEq

inductive Instr where
  | I8_Const (dst : Nat) (val : Int)
  | I16_Const (dst : Nat) (val : Int)
  | I32_Const (dst : Nat) (val : Int)
  | I64_Const (dst : Nat) (val : Int)
  | I128_Const (dst : Nat) (val : Int)
  | Cmp (op : BinOp) (ty : Ty) (dst lhs rhs : Nat)
  | MovSS (size : Nat) (dst src : Nat)
  | MovPS (size : Nat) (dst srcPtr : Nat) (offset : Int)
  | MovSP (size : Nat) (dstPtr src : Nat) (offset : Int)
  | SlotAddr (dst src : Nat)
  | PointerOffset2 (dst src : Nat) (offset : Int)
  | PointerOffset3 (dstInout src : Nat) (offset : Int)
  | IndexCalc (argOut : Nat) (elemSize elemCount : Nat)
  | IndexCalcDyn (argOut : Nat) (elemSize : Nat) (elemCountSlot : Nat)
  | IndexCalcEndPointer (outSlot slice : Nat) (elemSize : Nat)
  | ArrayRepeat (base : Nat) (size count : Nat)
  | MemCompare (result a b : Nat)
  | Jump (offset : Int)
  | JumpF (offset : Int) (cond : Nat)
  | JumpT (offset : Int) (cond : Nat)
  | Call (frame : Nat) (func : Nat)
  | CallPtr (frame ptr : Nat)
  | VTableFunc (dstPtr vtablePtr : Nat) (memberIndex : Nat)
  | Return
  | Skipped
  | Bad

/-- The source-level variant name of each instruction (the `Debug` name of
the Rust enum variant). -/
def Instr.tag : Instr → String
  | .I8_Const .. => "I8_Const"
  | .I16_Const .. => "I16_Const"
  | .I32_Const .. => "I32_Const"
  | .I64_Const .. => "I64_Const"
  | .I128_Const .. => "I128_Const"
  | .Cmp .. => "Cmp"
  | .MovSS .. => "MovSS"
  | .MovPS .. => "MovPS"
  | .MovSP .. => "MovSP"
  | .SlotAddr .. => "SlotAddr"
  | .PointerOffset2 .. => "PointerOffset2"
  | .PointerOffset3 .. => "PointerOffset3"
  | .IndexCalc .. => "IndexCalc"
  | .IndexCalcDyn .. => "IndexCalcDyn"
  | .IndexCalcEndPointer .. => "IndexCalcEndPointer"
  | .ArrayRepeat .. => "ArrayRepeat"
  | .MemCompare .. => "MemCompare"
  | .Jump .. => "Jump"
  | .JumpF .. => "JumpF"
  | .JumpT .. => "JumpT"
  | .Call .. => "Call"
  | .CallPtr .. => "CallPtr"
  | .VTableFunc .. => "VTableFunc"
  | .Return => "Return"
  | .Skipped => "Skipped"
  | .Bad => "Bad"

/-! ## Function handles and bytecode publication (`src/vm/vm.rs`) -/

/-- The mutable cells of a `Function`: `native: AtomicPtr<c_void>` and
`bytecode: AtomicPtr<Vec<Instr>>`; `none` models the null pointer. -/
structure FnState where
  native : Option Nat
  bytecode : Option (List Instr)

/-- `Function::set_bytecode`: `self.bytecode.store(bc, Ordering::Release)` -
an unconditional atomic store. -/
def Function.set_bytecode (f : FnState) (bc : List Instr) : FnState :=
  { f with bytecode := some bc }

/-- `Function::get_bytecode`: acquire load, null mapped to `None`. -/
def Function.get_bytecode (f : FnState) : Option (List Instr) :=
  f.bytecode

/-- `Function::bytecode`: loop { if published, return it; otherwise compile
and publish }.  The compilation result is the `compiled` argument; after a
publish the next loop iteration's load observes it, so the loop runs at most
twice and is modelled by its two cases. -/
def Function.bytecode (compiled : List Instr) (f : FnState) : List Instr × FnState :=
  match f.bytecode with
  | some bc => (bc, f)
  | none => (compiled, Function.set_bytecode f compiled)

/-! ## The monomorphization cache (`Item::func_mono`, `VM::alloc_function`) -/

/-- `ItemKind::Function { mono_instances: Mutex<AHashMap<SubList, &Function>> }`.
Handles are arena indices (`&'vm Function` references into
`arena_functions`); pointer equality of handles is index equality. -/
structure MonoCache where
  entries : List (SubL × Nat)

/-- `arena_functions`, recording for each allocated `Function` the `subs` it
was constructed with.  (`VM::alloc_function` also wires up native builtins
keyed on the item path; that does not affect handle identity and is omitted.) -/
structure FuncArena where
  funcs : List SubL

/-- `VM::alloc_function`: arena-allocate a fresh `Function { source, subs, .. }`
and return the reference. -/
def VM.alloc_function (a : FuncArena) (subs : SubL) : Nat × FuncArena :=
  (a.funcs.length, ⟨a.funcs ++ [subs]⟩)

/-- `Item::func_mono`: under the `mono_instances` lock, return the cached
handle for `subs`, or allocate one and cache it (`entry(..).or_insert_with`). -/
def Item.func_mono (cache : MonoCache) (arena : FuncArena) (subs : SubL) :
    Nat × MonoCache × FuncArena :=
  match cache.entries.find? (fun e => SubL.beq e.1 subs) with
  | some e => (e.2, cache, arena)
  | none =>
    let r := VM.alloc_function arena subs
    (r.1, ⟨cache.entries ++ [(subs, r.1)]⟩, r.2)

/-! ## Closure lowering (`src/closure.rs`) -/

inductive FnTrait where
  | Fn
  | FnMut
  | FnOnce
  deriving DecidableEq

structure FunctionSig where
  inputs : TyL
  output : Ty

/-- IR pattern nodes, as stored in the IR's pattern arena; only the shapes
the closure transform inserts are distinguished. -/
inductive IRPatKind where
  | Hole
  | Struct (fields : List (Nat × Nat))
  | Other

structure IRPat where
  kind : IRPatKind
  ty : Ty

/-- The parts of `IRFunction` that `build_ir_for_trait` reads and rewrites:
the signature, the parameter pattern ids, the pattern arena and the
`closure_kind` tag. -/
structure IRFunction where
  sig : FunctionSig
  params : List Nat
  patterns : List IRPat
  closureKind : Option FnTrait

/-- `IRFunction::insert_pattern`: append to the pattern arena, return its id. -/
def IRFunction.insertPattern (f : IRFunction) (kind : IRPatKind) (ty : Ty) :
    IRFunction × Nat :=
  ({ f with patterns := f.patterns ++ [⟨kind, ty⟩] }, f.patterns.length)

/-- `build_ir_for_trait` (`src/closure.rs` lines 101-143): set the closure
kind, replace the signature's `(args)` with `(self, (args))` and the param
patterns with `(self-hole, struct-of-original-params)`.  The `self` type is
`&T` for `Fn`, `&mut T` for `FnMut`, and the `_ => panic!("todo self ty")`
arm is hit for `FnOnce`. -/
def build_ir_for_trait (irIn : IRFunction) (kind : FnTrait) (selfTy : Ty) :
    Except String IRFunction := do
  let newIr := { irIn with closureKind := some kind }
  let selfTy ← match kind with
    | .Fn => pure (Ty.Ref selfTy false)
    | .FnMut => pure (Ty.Ref selfTy true)
    | .FnOnce => throw "todo self ty"
  let argsTuple := Ty.Tuple irIn.sig.inputs
  let newIr := { newIr with sig := ⟨.cons selfTy (.cons argsTuple .nil), newIr.sig.output⟩ }
  let r₁ := newIr.insertPattern .Hole selfTy
  let newIr := r₁.1
  let selfPattern := r₁.2
  let paramFields := (List.range newIr.params.length).zip newIr.params
  let r₂ := newIr.insertPattern (.Struct paramFields) argsTuple
  let newIr := r₂.1
  let argsPattern := r₂.2
  pure { newIr with params := [selfPattern, argsPattern] }


/-! ## Layouts and the compiler stack (`src/bytecode_compiler.rs`)

Layouts are computed by the type context (`types.rs`, not under `src/`); the
spec fixes that "the layout of every monomorphic type is stable (interned)
and consulted by value rather than recomputed", so the embedding passes the
layout table in as a function `Ty → Layout`. -/

inductive FieldOffsets where
  | single (offsets : List Nat)
  | variants (perVariant : List (List Nat)) (discs : List (Option Int))

structure Layout where
  size : Nat
  align : Nat
  fieldOffsets : FieldOffsets

/-- `FieldOffsets::assert_single` - panics on an enum layout. -/
def FieldOffsets.assertSingle : FieldOffsets → Except String (List Nat)
  | .single offsets => .ok offsets
  | .variants _ _ => .error "assert_single on enum layout"

/-- The combined mutable state of `BytecodeCompiler` (`out_bc`, `locals`) and
its `CompilerStack` (`entries`, `top`); scopes are not used in the embedded
fragments. -/
structure CompState where
  outBc : List Instr
  entries : List (Nat × Nat)
  stackTop : Nat
  locals : List (Nat × Nat)

/-- `CompilerStack::align`. -/
def CompState.align (s : CompState) (a : Nat) : CompState :=
  { s with stackTop := alignUp s.stackTop a }

/-- `CompilerStack::alloc` / `alloc_no_drop`: align, record the entry,
advance the top, return the base.  (`alloc` additionally rejects types with
drop obligations; the embedded fragments operate on POD values, per §9.) -/
def CompState.allocLayout (s : CompState) (l : Layout) : Nat × CompState :=
  let s := s.align l.align
  (s.stackTop,
    { s with entries := s.entries ++ [(s.stackTop, l.size)],
             stackTop := s.stackTop + l.size })

/-- `CompilerStack::align_for_call`: align the top to 16 and return it. -/
def CompState.alignForCall (s : CompState) : Nat × CompState :=
  let s := s.align 16
  (s.stackTop, s)

def CompState.push (s : CompState) (i : Instr) : CompState :=
  { s with outBc := s.outBc ++ [i] }

def CompState.pushOpt (s : CompState) : Option Instr → CompState
  | some i => s.push i
  | none => s

/-- `BytecodeCompiler::skip_instr`: push a `Skipped` placeholder, return its
index for later patching. -/
def CompState.skipInstr (s : CompState) : Nat × CompState :=
  (s.outBc.length, s.push .Skipped)

/-- `BytecodeCompiler::get_jump_offset`. -/
def CompState.getJumpOffset (s : CompState) (other : Nat) : Int :=
  (other : Int) - (s.outBc.length : Int)

/-- `POINTER_SIZE.bytes()`. -/
def POINTER_SIZE : Nat := 8

/-- `vm.common_types().usize`. -/
def usizeTy : Ty := .Int 8 false

/-- Modelled from the spec: `bytecode_select::literal(n, size, slot)` selects
the `I{n}_Const` variant on the literal width. -/
def bytecodeSelect.literal (n : Int) (size : Nat) (slot : Nat) : Instr :=
  match size with
  | 1 => .I8_Const slot n
  | 2 => .I16_Const slot n
  | 4 => .I32_Const slot n
  | 8 => .I64_Const slot n
  | 16 => .I128_Const slot n
  | _ => .Bad

/-- Modelled from the spec: `bytecode_select::copy(dst, src, ty)` emits a
slot-to-slot move of the type's size, or nothing for a zero-sized type (the
call sites all treat the `None` result as "no instruction"). -/
def bytecodeSelect.copy (dst src : Nat) (size : Nat) : Option Instr :=
  if size = 0 then none else some (.MovSS size dst src)

/-- Modelled from the spec: `bytecode_select::copy_from_ptr(dst, ptr, ty, offset)`. -/
def bytecodeSelect.copyFromPtr (dst ptrSlot : Nat) (size : Nat) (offset : Int) : Option Instr :=
  if size = 0 then none else some (.MovPS size dst ptrSlot offset)

/-- Modelled from the spec: the comparison constructor returned by
`bytecode_select::binary(op, ty)` (the embedding records the operator and
the operand type the instruction was selected for). -/
def bytecodeSelect.binaryCmp (op : BinOp) (ty : Ty) (dst lhs rhs : Nat) : Instr :=
  .Cmp op ty dst lhs rhs

/-- The compiler's read-only context: the layout table and expression-side
collaborators of the pattern/call fragments (`§4.2` expression lowering is a
separate component and enters here only as the function `lowerExpr`), plus
the monomorphization substitutions `in_func_subs`. -/
structure CompCtx where
  layoutOf : Ty → Layout
  enumDiscTy : Ty → Option Ty
  lowerExpr : Nat → CompState → Nat × CompState
  exprTy : Nat → Ty
  constPtr : Nat → Int
  subs : SubL

/-- `self.apply_subs(ty)` = `ty.sub(self.in_func_subs)`. -/
def CompCtx.applySubs (ctx : CompCtx) (ty : Ty) : Ty := ty.sub ctx.subs

/-! ## Call-frame construction (`BytecodeCompiler::build_call`) -/

/-- The first phase of `build_call`: evaluate each argument into its own
slot (`lower_expr(arg, None)`), except that argument 0 is replaced by
`override_arg_0` when present. -/
def buildCallEvalArgs (ctx : CompCtx) (argsList : List Nat) (overrideArg0 : Option Nat)
    (i : Nat) (s : CompState) : List Nat × CompState :=
  match argsList with
  | [] => ([], s)
  | a :: rest =>
    let r :=
      if i = 0 then
        match overrideArg0 with
        | some o => (o, s)
        | none => ctx.lowerExpr a s
      else ctx.lowerExpr a s
    let r2 := buildCallEvalArgs ctx rest overrideArg0 (i + 1) r.2
    (r.1 :: r2.1, r2.2)

/-- The third phase of `build_call`: allocate the final argument slots in
declaration order (argument 0 is a thin pointer - `usize` - when overridden). -/
def buildCallAllocArgs (ctx : CompCtx) (argsList : List Nat) (overrideArg0 : Option Nat)
    (i : Nat) (s : CompState) : List (Nat × Ty) × CompState :=
  match argsList with
  | [] => ([], s)
  | a :: rest =>
    let argTy := if i = 0 ∧ overrideArg0.isSome then usizeTy else ctx.exprTy a
    let r := s.allocLayout (ctx.layoutOf argTy)
    let r2 := buildCallAllocArgs ctx rest overrideArg0 (i + 1) r.2
    ((r.1, argTy) :: r2.1, r2.2)

/-- The final phase of `build_call`: copy each evaluated argument into its
final slot. -/
def buildCallCopies (ctx : CompCtx) (srcs : List Nat) (dsts : List (Nat × Ty))
    (s : CompState) : CompState :=
  match srcs, dsts with
  | src :: srcs, (dst, ty) :: dsts =>
    let s := s.pushOpt (bytecodeSelect.copy dst src (ctx.layoutOf ty).size)
    buildCallCopies ctx srcs dsts s
  | _, _ => s

/-- `BytecodeCompiler::build_call` (`src/bytecode_compiler.rs` lines
1379-1424): evaluate the arguments, allocate a 16-aligned return slot
(asserting it lands on the aligned base), allocate the argument slots after
it in declaration order, and copy each argument into place. -/
def build_call (ctx : CompCtx) (resTy : Ty) (argsList : List Nat)
    (overrideArg0 : Option Nat) (s : CompState) : Except String (Nat × CompState) := do
  let ev := buildCallEvalArgs ctx argsList overrideArg0 0 s
  let argsSrc := ev.1
  let s := ev.2
  let ra := s.alignForCall
  let baseSlot := ra.1
  let rr := ra.2.allocLayout (ctx.layoutOf resTy)
  let retSlot := rr.1
  let s := rr.2
  if retSlot ≠ baseSlot then throw "assert_eq ret_slot base_slot" else
  let ad := buildCallAllocArgs ctx argsList overrideArg0 0 s
  let argsDst := ad.1
  let s := ad.2
  let s := buildCallCopies ctx argsSrc argsDst s
  pure (retSlot, s)

/-- A list of `(base, size)` allocations forms a forward chain from `start`:
each base is at or after the previous allocation's end (the "immediately
after, in declaration order" discipline of sequential aligned allocation). -/
def allocChainB (start : Nat) : List (Nat × Nat) → Bool
  | [] => true
  | (sl, sz) :: rest => decide (start ≤ sl) && allocChainB (sl + sz) rest

/-- The copy instructions `build_call` emits while moving evaluated
arguments into their final slots. -/
def callCopies (ctx : CompCtx) : List Nat → List (Nat × Ty) → List Instr
  | src :: srcs, (dst, ty) :: dsts =>
    (bytecodeSelect.copy dst src (ctx.layoutOf ty).size).toList ++ callCopies ctx srcs dsts
  | _, _ => []

/-! ## Patterns and places (`src/bytecode_compiler.rs`, `ir::PatternKind`)

Patterns are stored in an arena in the real IR; the embedding inlines
sub-patterns (mutual inductives instead of ids) so that recursion is
structural.  `NamedConst` keeps only the key needed to fetch the constant's
bytes, and `LiteralBytes` keeps the byte pointer and length the compiled
code embeds. -/

inductive PointerKind where
  | Thin
  | Fat
  deriving DecidableEq

/-- `Place`: where a value lives during lowering - `Local(slot)` or
`Ptr(slot, offset, thin|fat)`. -/
inductive Place where
  | Local (slot : Nat)
  | Ptr (slot : Nat) (offset : Int) (kind : PointerKind)
  deriving DecidableEq

/-- `Place::offset_by`. -/
def Place.offsetBy : Place → Int → Place
  | .Local slot, n => .Local (Slot.offsetBy slot n)
  | .Ptr slot off k, n => .Ptr slot (off + n) k

inductive BindingMode where
  | Value
  | Ref
  deriving DecidableEq

mutual
inductive Pattern where
  | mk (kind : PatternKind) (ty : Ty)

inductive PatternKind where
  | Hole
  | LocalBinding (localId : Nat) (mode : BindingMode) (subPattern : OPat)
  | Struct (fields : FieldPatL)
  | Enum (fields : FieldPatL) (variantIndex : Nat)
  | Or (options : PatternL)
  | DeRef (subPattern : Pattern)
  | LiteralValue (n : Int)
  | NamedConst (constId : Nat)
  | LiteralBytes (bytesAddr : Int) (bytesLen : Nat)
  | Range (start : Option Nat) (stop : Option Nat) (endIsInclusive : Bool)
  | Slice (start : PatternL) (mid : OPat) (stop : PatternL)
  | Error (msg : String)

inductive OPat where
  | none
  | some (p : Pattern)

inductive FieldPat where
  | mk (field : Nat) (pattern : Pattern)

inductive PatternL where
  | nil
  | cons (hd : Pattern) (tl : PatternL)

inductive FieldPatL where
  | nil
  | cons (hd : FieldPat) (tl : FieldPatL)
end

def Pattern.kind : Pattern → PatternKind
  | .mk k _ => k

def Pattern.ty : Pattern → Ty
  | .mk _ t => t

def OPat.isSome : OPat → Bool
  | .none => false
  | .some _ => true

def PatternL.length : PatternL → Nat
  | .nil => 0
  | .cons _ tl => 1 + tl.length

/-- Modelled from the spec: "Unsized types have no stand-alone size" -
slices and string slices are the unsized types the pattern compiler meets. -/
def Ty.isSized (t : Ty) :=
  match t with
  | .Slice _ => false
  | .StringSlice => false
  | _ => true

/-! ## Pattern-compiler state helpers -/

/-- `BytecodeCompiler::find_or_alloc_local`. -/
def CompState.findOrAllocLocal (s : CompState) (ctx : CompCtx) (localId : Nat) (ty : Ty) :
    Nat × CompState :=
  match s.locals.find? (fun p => p.1 == localId) with
  | some p => (p.2, s)
  | none =>
    let r := s.allocLayout (ctx.layoutOf ty)
    (r.1, { r.2 with locals := r.2.locals ++ [(localId, r.1)] })

/-- `BytecodeCompiler::assert_local_undef`. -/
def CompState.assertLocalUndef (s : CompState) (localId : Nat) : Except String Unit :=
  if s.locals.any (fun p => p.1 == localId) then .error "assert_local_undef failed"
  else .ok ()

/-- The "cut out unnecessary jumps" step shared by the struct, enum, or and
slice arms: drop the last recorded gap when it is the last emitted
instruction. -/
def cutLastGap (gaps : List Nat) (s : CompState) : List Nat × CompState :=
  match gaps.getLast? with
  | some lastGap =>
    if lastGap = s.outBc.length - 1 then (gaps.dropLast, { s with outBc := s.outBc.dropLast })
    else (gaps, s)
  | none => (gaps, s)

/-- The gap-patching loop: overwrite each recorded `Skipped` with a
conditional jump past the end of the sequence
(`gap_offset = -get_jump_offset(gap)`). -/
def patchGaps (mkJump : Int → Nat → Instr) (gaps : List Nat) (rslot : Nat)
    (s : CompState) : CompState :=
  gaps.foldl
    (fun s g => { s with outBc := s.outBc.set g (mkJump (-(s.getJumpOffset g)) rslot) }) s

/-! ## `BytecodeCompiler::match_pattern_internal`

The embedding follows the source arm by arm.  The enum arm synthesizes a
literal-value pattern for the discriminant and recurses on it; since that
arm of the recursion is the `LiteralValue` body, it is factored into
`matchLiteralValue` and used for both.  Recursion over the pattern tree is
paid for with a fuel parameter (`throw "fuel"` cannot occur for
`fuel ≥ depth of the pattern`); the list-shaped loops are structural and
take the recursive matcher as an argument `mp`. -/

/-- The `PatternKind::LiteralValue` arm: load the source value (through the
pointer if needed), materialize the literal, compare with `Eq`, write the
result slot.  Always refutable. -/
def matchLiteralValue (ctx : CompCtx) (ty : Ty) (n : Int) (source : Place)
    (matchResultSlot : Option Nat) (s : CompState) : Except String (Bool × CompState) := do
  let rslot ← match matchResultSlot with
    | some r => pure r
    | none => throw "literal pattern without result slot"
  let vs :=
    match source with
    | .Local slot => (slot, s)
    | .Ptr refSlot refOffset _ =>
      let tyS := ctx.applySubs ty
      let a := s.allocLayout (ctx.layoutOf tyS)
      (a.1, a.2.pushOpt (bytecodeSelect.copyFromPtr a.1 refSlot (ctx.layoutOf tyS).size refOffset))
  let valSlot := vs.1
  let s := vs.2
  let size := (ctx.layoutOf ty).size
  let a := s.allocLayout (ctx.layoutOf ty)
  let litSlot := a.1
  let s := a.2.push (bytecodeSelect.literal n size litSlot)
  let s := s.push (bytecodeSelect.binaryCmp .Eq ty rslot valSlot litSlot)
  pure (true, s)

/-- The struct/enum field loop: match each field pattern at its layout
offset, accumulate refutability, and record a jump gap after each refutable
field (when a result slot exists). -/
def matchFieldsAux
    (mp : Pattern → Place → Bool → Option Nat → CompState → Except String (Bool × CompState))
    (offsets : List Nat) (source : Place) (canAlias : Bool) (rs : Option Nat) :
    FieldPatL → List Nat → Bool → CompState → Except String (List Nat × Bool × CompState)
  | .nil, gaps, result, s => pure (gaps, result, s)
  | .cons (.mk fieldIdx fieldPat) rest, gaps, result, s => do
    let offset ← match offsets.get? fieldIdx with
      | some o => pure o
      | none => throw "field offset out of range"
    let r ← mp fieldPat (source.offsetBy (offset : Int)) canAlias rs s
    let result := result || r.1
    if r.1 && rs.isSome then
      let sk := r.2.skipInstr
      matchFieldsAux mp offsets source canAlias rs rest (gaps ++ [sk.1]) result sk.2
    else
      matchFieldsAux mp offsets source canAlias rs rest gaps result r.2

/-- The slice-group loop (start / end groups of a slice pattern): like the
field loop but with index-computed places. -/
def matchGroupAux
    (mp : Pattern → Place → Bool → Option Nat → CompState → Except String (Bool × CompState))
    (placeOf : Nat → Place) (canAlias : Bool) (rs : Option Nat) :
    PatternL → Nat → List Nat → Bool → CompState → Except String (List Nat × Bool × CompState)
  | .nil, _, gaps, result, s => pure (gaps, result, s)
  | .cons pat rest, i, gaps, result, s => do
    let r ← mp pat (placeOf i) canAlias rs s
    let result := result || r.1
    if r.1 && rs.isSome then
      let sk := r.2.skipInstr
      matchGroupAux mp placeOf canAlias rs rest (i + 1) (gaps ++ [sk.1]) result sk.2
    else
      matchGroupAux mp placeOf canAlias rs rest (i + 1) gaps result r.2

/-- The or-pattern loop: try each option (always copying, `can_alias =
false`); an irrefutable option ends the loop with overall result `false`,
otherwise a gap is recorded and the next option tried. -/
def matchOrOptionsAux
    (mp : Pattern → Place → Bool → Option Nat → CompState → Except String (Bool × CompState))
    (source : Place) (rs : Option Nat) :
    PatternL → List Nat → CompState → Except String (List Nat × Bool × CompState)
  | .nil, gaps, s => pure (gaps, true, s)
  | .cons o rest, gaps, s => do
    let r ← mp o source false rs s
    if !r.1 then
      pure (gaps, false, r.2)
    else
      let sk := r.2.skipInstr
      matchOrOptionsAux mp source rs rest (gaps ++ [sk.1]) sk.2

/-- The `PatternKind::NamedConst` arm: load a pointer to the interned
constant bytes, copy them to a slot, compare with `Eq`.  Always refutable. -/
def matchNamedConst (ctx : CompCtx) (ty : Ty) (constId : Nat) (source : Place)
    (matchResultSlot : Option Nat) (s : CompState) : Except String (Bool × CompState) := do
  let rslot ← match matchResultSlot with
    | some r => pure r
    | none => throw "named-const pattern without result slot"
  let vs :=
    match source with
    | .Local slot => (slot, s)
    | .Ptr refSlot refOffset _ =>
      let tyS := ctx.applySubs ty
      let a := s.allocLayout (ctx.layoutOf tyS)
      (a.1, a.2.pushOpt (bytecodeSelect.copyFromPtr a.1 refSlot (ctx.layoutOf tyS).size refOffset))
  let valSlot := vs.1
  let s := vs.2
  let constPtr := ctx.constPtr constId
  let a := s.allocLayout (ctx.layoutOf usizeTy)
  let ptrSlot := a.1
  let s := a.2.push (bytecodeSelect.literal constPtr (ctx.layoutOf usizeTy).size ptrSlot)
  let b := s.allocLayout (ctx.layoutOf ty)
  let cmpSlot := b.1
  let s := b.2
  let s ← match bytecodeSelect.copyFromPtr cmpSlot ptrSlot (ctx.layoutOf ty).size 0 with
    | some i => pure (s.push i)
    | none => throw "copy_from_ptr unwrap failed"
  let s := s.push (bytecodeSelect.binaryCmp .Eq ty rslot cmpSlot valSlot)
  pure (true, s)

/-- The `PatternKind::LiteralBytes` arm: build the reference literal
(pointer + length) and compare via `MemCompare`.  Always refutable. -/
def matchLiteralBytes (ctx : CompCtx) (ty : Ty) (bytesAddr : Int) (bytesLen : Nat)
    (source : Place) (matchResultSlot : Option Nat) (s : CompState) :
    Except String (Bool × CompState) := do
  let rslot ← match matchResultSlot with
    | some r => pure r
    | none => throw "bytes pattern without result slot"
  let vs :=
    match source with
    | .Local slot => (slot, s)
    | .Ptr refSlot refOffset _ =>
      let tyS := ctx.applySubs ty
      let a := s.allocLayout (ctx.layoutOf tyS)
      (a.1, a.2.pushOpt (bytecodeSelect.copyFromPtr a.1 refSlot (ctx.layoutOf tyS).size refOffset))
  let valSlot := vs.1
  let s := vs.2
  let _ ← (match ty with
    | .Ref .StringSlice _ => pure ()
    | _ => throw "string pattern on non-str type")
  if (ctx.layoutOf ty).size ≠ POINTER_SIZE * 2 then throw "str pattern layout not fat" else
  let a := s.allocLayout (ctx.layoutOf ty)
  let refSlot := a.1
  let s := a.2.push (bytecodeSelect.literal bytesAddr POINTER_SIZE refSlot)
  let s := s.push (bytecodeSelect.literal bytesLen POINTER_SIZE
    (Slot.offsetBy refSlot (POINTER_SIZE : Int)))
  let s := s.push (.MemCompare rslot valSlot refSlot)
  pure (true, s)

/-- The `PatternKind::Range` arm: compare against the lowered bound
expressions (`LtEq`/`Lt`), joining a two-sided range with a conditional
jump.  Always refutable. -/
def matchRange (ctx : CompCtx) (ty : Ty) (start stop : Option Nat) (endIsInclusive : Bool)
    (source : Place) (matchResultSlot : Option Nat) (s : CompState) :
    Except String (Bool × CompState) := do
  let rslot ← match matchResultSlot with
    | some r => pure r
    | none => throw "range pattern without result slot"
  let vs :=
    match source with
    | .Local slot => (slot, s)
    | .Ptr refSlot refOffset _ =>
      let tyS := ctx.applySubs ty
      let a := s.allocLayout (ctx.layoutOf tyS)
      (a.1, a.2.pushOpt (bytecodeSelect.copyFromPtr a.1 refSlot (ctx.layoutOf tyS).size refOffset))
  let valSlot := vs.1
  let s := vs.2
  match stop with
  | some e =>
    let le := ctx.lowerExpr e s
    let op := if endIsInclusive then BinOp.LtEq else BinOp.Lt
    let s := le.2.push (bytecodeSelect.binaryCmp op ty rslot valSlot le.1)
    match start with
    | some st =>
      let sk := s.skipInstr
      let ls := ctx.lowerExpr st sk.2
      let s := ls.2.push (bytecodeSelect.binaryCmp .LtEq ty rslot ls.1 valSlot)
      let s := { s with outBc := s.outBc.set sk.1 (.JumpF (-(s.getJumpOffset sk.1)) rslot) }
      pure (true, s)
    | none => pure (true, s)
  | none =>
    match start with
    | some st =>
      let ls := ctx.lowerExpr st s
      let s := ls.2.push (bytecodeSelect.binaryCmp .LtEq ty rslot ls.1 valSlot)
      pure (true, s)
    | none => throw "bad range"

/-- `BytecodeCompiler::match_pattern_internal` (`src/bytecode_compiler.rs`
lines 1493-2200), arm by arm.  Returns whether the pattern is refutable;
per its contract, when the result is `false` the caller must assume the
match succeeded. -/
def matchPatternInternal (ctx : CompCtx) :
    Nat → Pattern → Place → Bool → Option Nat → CompState → Except String (Bool × CompState)
  | 0, _, _, _, _, _ => throw "recursion fuel exhausted"
  | fuel + 1, .mk kind ty, source, canAlias, matchResultSlot, s =>
    match kind with
    | .Hole => pure (false, s)
    | .LocalBinding localId mode subPattern => do
      let s ← (match mode, source with
        | .Value, .Local sourceSlot =>
          if !canAlias || subPattern.isSome then
            let tyS := ctx.applySubs ty
            let fa := s.findOrAllocLocal ctx localId tyS
            pure (fa.2.pushOpt (bytecodeSelect.copy fa.1 sourceSlot (ctx.layoutOf tyS).size))
          else do
            let _ ← s.assertLocalUndef localId
            pure { s with locals := s.locals ++ [(localId, sourceSlot)] }
        | .Value, .Ptr refSlot refOffset ptrKind =>
          if ptrKind ≠ .Thin then throw "value binding through fat pointer" else
          let tyS := ctx.applySubs ty
          let fa := s.findOrAllocLocal ctx localId tyS
          pure (fa.2.pushOpt (bytecodeSelect.copyFromPtr fa.1 refSlot (ctx.layoutOf tyS).size refOffset))
        | .Ref, .Local sourceSlot =>
          let refTy := ctx.applySubs ty
          let fa := s.findOrAllocLocal ctx localId refTy
          pure (fa.2.push (.SlotAddr fa.1 sourceSlot))
        | .Ref, .Ptr refSlot refOffset _ =>
          let refTy := ctx.applySubs ty
          let fa := s.findOrAllocLocal ctx localId refTy
          let s := fa.2.push (.PointerOffset2 fa.1 refSlot refOffset)
          if (ctx.layoutOf refTy).size ≠ POINTER_SIZE then
            throw "fat result pointer in ref binding"
          else pure s)
      match subPattern with
      | .some sub => matchPatternInternal ctx fuel sub source false matchResultSlot s
      | .none => pure (false, s)
    | .Struct fields => do
      let layout := ctx.layoutOf (ctx.applySubs ty)
      let offsets ← layout.fieldOffsets.assertSingle
      let r ← matchFieldsAux (fun p pl ca rs st => matchPatternInternal ctx fuel p pl ca rs st)
        offsets source canAlias matchResultSlot fields [] false s
      let cg := cutLastGap r.1 r.2.2
      let s := match matchResultSlot with
        | some rslot => patchGaps Instr.JumpF cg.1 rslot cg.2
        | none => cg.2
      pure (r.2.1, s)
    | .Enum fields variantIndex => do
      let layout := ctx.layoutOf (ctx.applySubs ty)
      let discTy ← match ctx.enumDiscTy ty with
        | some t => pure t
        | none => throw "not an enum?"
      let pv ← match layout.fieldOffsets with
        | .variants perVariant discs => pure (perVariant, discs)
        | .single _ => throw "enum pattern on struct layout"
      let discOpt ← match pv.2.get? variantIndex with
        | some d => pure d
        | none => throw "variant index out of range"
      let discVal ← match discOpt with
        | some v => pure v
        | none => throw "no discriminant!"
      let r0 ← matchLiteralValue ctx discTy discVal source matchResultSlot s
      let sk := r0.2.skipInstr
      let offsets ← match pv.1.get? variantIndex with
        | some o => pure o
        | none => throw "variant offsets out of range"
      let r ← matchFieldsAux (fun p pl ca rs st => matchPatternInternal ctx fuel p pl ca rs st)
        offsets source canAlias matchResultSlot fields [sk.1] false sk.2
      let cg := cutLastGap r.1 r.2.2
      let s := match matchResultSlot with
        | some rslot => patchGaps Instr.JumpF cg.1 rslot cg.2
        | none => cg.2
      pure (true, s)
    | .Or options => do
      if options.length < 2 then throw "or-pattern requires at least two options" else
      let r ← matchOrOptionsAux (fun p pl ca rs st => matchPatternInternal ctx fuel p pl ca rs st)
        source matchResultSlot options [] s
      let cg := cutLastGap r.1 r.2.2
      match matchResultSlot with
      | some rslot => pure (r.2.1, patchGaps Instr.JumpT cg.1 rslot cg.2)
      | none => throw "or-pattern should always have a result slot"
    | .DeRef subPattern => do
      let patTy := ctx.applySubs ty
      let subTy := ctx.applySubs subPattern.ty
      let ptrKind := if subTy.isSized then PointerKind.Thin else PointerKind.Fat
      match source with
      | .Local sourceSlot =>
        matchPatternInternal ctx fuel subPattern (.Ptr sourceSlot 0 ptrKind) false matchResultSlot s
      | .Ptr ptrSlot ptrOffset _ =>
        let a := s.allocLayout (ctx.layoutOf patTy)
        let s := a.2.pushOpt (bytecodeSelect.copyFromPtr a.1 ptrSlot (ctx.layoutOf patTy).size ptrOffset)
        matchPatternInternal ctx fuel subPattern (.Ptr a.1 0 ptrKind) false matchResultSlot s
    | .LiteralValue n => matchLiteralValue ctx ty n source matchResultSlot s
    | .NamedConst constId => matchNamedConst ctx ty constId source matchResultSlot s
    | .LiteralBytes addr len => matchLiteralBytes ctx ty addr len source matchResultSlot s
    | .Range start stop inc => matchRange ctx ty start stop inc source matchResultSlot s
    | .Slice startPats mid endPats => do
      let tyS := ctx.applySubs ty
      match tyS with
      | .Array elemTy arrayLen =>
        let elemSize := ((ctx.layoutOf elemTy).size : Int)
        let r1 ← matchGroupAux (fun p pl ca rs st => matchPatternInternal ctx fuel p pl ca rs st)
          (fun i => source.offsetBy ((i : Int) * elemSize)) canAlias matchResultSlot
          startPats 0 [] false s
        let r2 ← (match mid with
          | .some midPat => do
            let subTy := ctx.applySubs midPat.ty
            let _ ← (match subTy with
              | .Array _ _ => pure ()
              | .Ref (.Array _ _) _ => pure ()
              | _ => throw "bad slice middle")
            let rm ← matchPatternInternal ctx fuel midPat
              (source.offsetBy ((startPats.length : Int) * elemSize)) canAlias matchResultSlot r1.2.2
            if rm.1 && matchResultSlot.isSome then
              let sk := rm.2.skipInstr
              pure (r1.1 ++ [sk.1], r1.2.1 || rm.1, sk.2)
            else
              pure (r1.1, r1.2.1 || rm.1, rm.2)
          | .none => pure r1)
        let r3 ← matchGroupAux (fun p pl ca rs st => matchPatternInternal ctx fuel p pl ca rs st)
          (fun i => source.offsetBy ((((arrayLen : Int) - (endPats.length : Int)) + (i : Int)) * elemSize))
          canAlias matchResultSlot endPats 0 r2.1 r2.2.1 r2.2.2
        let cg := cutLastGap r3.1 r3.2.2
        let s := match matchResultSlot with
          | some rslot => patchGaps Instr.JumpF cg.1 rslot cg.2
          | none => cg.2
        pure (r3.2.1, s)
      | .Slice elemTy =>
        let lenReq := startPats.length + endPats.length
        let lenReqIsExact := !mid.isSome
        match source with
        | .Local _ => throw "attempt to match value slice"
        | .Ptr refSlot refOffset ptrKind => do
          if refOffset ≠ 0 then throw "slice source pointer offset nonzero" else
          if ptrKind ≠ .Fat then throw "slice source pointer not fat" else
          let lenSlot := Slot.offsetBy refSlot (POINTER_SIZE : Int)
          let elemSize := (ctx.layoutOf elemTy).size
          let result := decide (0 < lenReq) || lenReqIsExact
          let gs ← (if result then do
              let rslot ← match matchResultSlot with
                | some r => pure r
                | none => throw "no result for refutable slice pattern?"
              let a := s.allocLayout (ctx.layoutOf usizeTy)
              let s := a.2.push (bytecodeSelect.literal lenReq (ctx.layoutOf usizeTy).size a.1)
              let cmpOp := if lenReqIsExact then BinOp.Eq else BinOp.LtEq
              let s := s.push (bytecodeSelect.binaryCmp cmpOp usizeTy rslot a.1 lenSlot)
              let sk := s.skipInstr
              pure ([sk.1], sk.2)
            else pure (([] : List Nat), s))
          let r1 ← matchGroupAux (fun p pl ca rs st => matchPatternInternal ctx fuel p pl ca rs st)
            (fun i => source.offsetBy ((i : Int) * elemSize)) canAlias matchResultSlot
            startPats 0 gs.1 false gs.2
          let s1 ← (match mid with
            | .some midPat =>
              match midPat.kind with
              | .Hole => pure r1.2.2
              | .LocalBinding localId bmode _ => do
                if bmode ≠ .Ref then throw "slice middle binding must be by ref" else
                let subTy := ctx.applySubs midPat.ty
                let _ ← (match subTy with
                  | .Ref (.Slice _) _ => pure ()
                  | _ => throw "bad slice middle")
                let fa := r1.2.2.findOrAllocLocal ctx localId subTy
                let s := fa.2.push (.PointerOffset2 fa.1 refSlot
                  ((startPats.length : Int) * (elemSize : Int)))
                let s := s.push (.PointerOffset2 (Slot.offsetBy fa.1 (POINTER_SIZE : Int)) lenSlot
                  (-((startPats.length + endPats.length : Nat) : Int)))
                pure s
              | _ => pure r1.2.2
            | .none => pure r1.2.2)
          let r2 ← (if 0 < endPats.length then do
              let a := s1.allocLayout (ctx.layoutOf usizeTy)
              let s := a.2.push (.IndexCalcEndPointer a.1 refSlot elemSize)
              matchGroupAux (fun p pl ca rs st => matchPatternInternal ctx fuel p pl ca rs st)
                (fun i => .Ptr a.1 (((i : Int) - (endPats.length : Int)) * (elemSize : Int)) .Thin)
                canAlias matchResultSlot endPats 0 r1.1 false s
            else pure (r1.1, false, s1))
          let cg := cutLastGap r2.1 r2.2.2
          let s := match matchResultSlot with
            | some rslot => patchGaps Instr.JumpF cg.1 rslot cg.2
            | none => cg.2
          pure (result, s)
      | _ => throw "todo slice pattern on this type"
    | .Error msg => throw msg

/-- `BytecodeCompiler::match_pattern_place` (lines 1445-1462): the entry
point fixes `can_alias = false`, runs the internal matcher, and - when a
result slot was supplied and the pattern was irrefutable - writes the
constant `1` (true) into the result slot. -/
def match_pattern_place (ctx : CompCtx) (fuel : Nat) (pat : Pattern) (source : Place)
    (matchResultSlot : Option Nat) (s : CompState) : Except String CompState := do
  let canAlias := false
  let r ← matchPatternInternal ctx fuel pat source canAlias matchResultSlot s
  match matchResultSlot with
  | some rslot =>
    if !r.1 then pure (r.2.push (.I8_Const rslot 1)) else pure r.2
  | none => pure r.2

mutual
/-- The refutability value `match_pattern_internal` computes, expressed
bottom-up as a function of the pattern (and, for slice patterns, of the
substituted type): holes and plain bindings are irrefutable; bindings and
deref patterns inherit their sub-pattern; struct and array-slice patterns
are refutable iff some sub-pattern is; or-patterns are refutable iff every
option is; literals, named constants, byte literals, ranges and enum
patterns are always refutable; slice-typed slice patterns are refutable iff
they constrain the length (a non-empty prefix/suffix, or no rest pattern). -/
def codeRefut (subs : SubL) : Pattern → Bool
  | .mk k ty => codeRefutKind subs ty k

def codeRefutKind (subs : SubL) (ty : Ty) : PatternKind → Bool
  | .Hole => false
  | .LocalBinding _ _ sub => codeRefutOPat subs sub
  | .Struct fields => codeRefutFields subs fields
  | .Enum _ _ => true
  | .Or options => codeRefutAll subs options
  | .DeRef sub => codeRefut subs sub
  | .LiteralValue _ => true
  | .NamedConst _ => true
  | .LiteralBytes _ _ => true
  | .Range _ _ _ => true
  | .Slice startPats mid endPats =>
    match ty.sub subs with
    | .Array _ _ =>
      codeRefutL subs startPats || codeRefutOPat subs mid || codeRefutL subs endPats
    | _ => decide (0 < startPats.length + endPats.length) || !mid.isSome
  | .Error _ => false

def codeRefutOPat (subs : SubL) : OPat → Bool
  | .none => false
  | .some p => codeRefut subs p

def codeRefutFields (subs : SubL) : FieldPatL → Bool
  | .nil => false
  | .cons (.mk _ p) tl => codeRefut subs p || codeRefutFields subs tl

def codeRefutL (subs : SubL) : PatternL → Bool
  | .nil => false
  | .cons p tl => codeRefut subs p || codeRefutL subs tl

def codeRefutAll (subs : SubL) : PatternL → Bool
  | .nil => true
  | .cons p tl => codeRefut subs p && codeRefutAll subs tl
end

mutual
/-- No or-pattern occurs anywhere in the pattern. -/
def orFree : Pattern → Bool
  | .mk k _ => orFreeKind k

def orFreeKind : PatternKind → Bool
  | .Hole => true
  | .LocalBinding _ _ sub => orFreeOPat sub
  | .Struct fields => orFreeFields fields
  | .Enum fields _ => orFreeFields fields
  | .Or _ => false
  | .DeRef sub => orFree sub
  | .LiteralValue _ => true
  | .NamedConst _ => true
  | .LiteralBytes _ _ => true
  | .Range _ _ _ => true
  | .Slice startPats mid endPats =>
    orFreeL startPats && orFreeOPat mid && orFreeL endPats
  | .Error _ => true

def orFreeOPat : OPat → Bool
  | .none => true
  | .some p => orFree p

def orFreeFields : FieldPatL → Bool
  | .nil => true
  | .cons (.mk _ p) tl => orFree p && orFreeFields tl

def orFreeL : PatternL → Bool
  | .nil => true
  | .cons p tl => orFree p && orFreeL tl
end

/-- Property of a pattern matcher: on success it reports exactly the
bottom-up refutability `codeRefut`.  Used to thread the induction hypothesis
through the loop helpers. -/
def MPRefutOk (subs : SubL)
    (mp : Pattern → Place → Bool → Option Nat → CompState → Except String (Bool × CompState)) :
    Prop :=
  ∀ p pl ca rs s b s', mp p pl ca rs s = .ok (b, s') → b = codeRefut subs p

/-- `Except` success test (no result inspection). -/
def exceptIsOk {α : Type} : Except String α → Bool
  | .ok _ => true
  | .error _ => false

mutual
/-- The refutability rule as the specification words it: "a struct, slice,
or or-pattern is refutable iff at least one of its sub-patterns is
refutable, while literal, range, and enum patterns are always refutable"
(other kinds as the code computes them).  Stated for comparison against
`codeRefut`, the value the code actually returns. -/
def specClaimRefut (subs : SubL) : Pattern → Bool
  | .mk k ty => specClaimRefutKind subs ty k

def specClaimRefutKind (subs : SubL) (ty : Ty) : PatternKind → Bool
  | .Hole => false
  | .LocalBinding _ _ sub => specClaimRefutOPat subs sub
  | .Struct fields => specClaimRefutFields subs fields
  | .Enum _ _ => true
  | .Or options => specClaimRefutAny subs options
  | .DeRef sub => specClaimRefut subs sub
  | .LiteralValue _ => true
  | .NamedConst _ => true
  | .LiteralBytes _ _ => true
  | .Range _ _ _ => true
  | .Slice startPats mid endPats =>
    specClaimRefutAny subs startPats || specClaimRefutOPat subs mid
      || specClaimRefutAny subs endPats
  | .Error _ => false

def specClaimRefutOPat (subs : SubL) : OPat → Bool
  | .none => false
  | .some p => specClaimRefut subs p

def specClaimRefutFields (subs : SubL) : FieldPatL → Bool
  | .nil => false
  | .cons (.mk _ p) tl => specClaimRefut subs p || specClaimRefutFields subs tl

def specClaimRefutAny (subs : SubL) : PatternL → Bool
  | .nil => false
  | .cons p tl => specClaimRefut subs p || specClaimRefutAny subs tl
end

/-- Which instructions write directly to a given stack slot (the destination
operand).  Stores through pointers (`MovSP`) target memory, not a slot;
call-like and block instructions that could write ranges of slots are
treated conservatively as writers. -/
def writesTo (i : Instr) (r : Nat) : Bool :=
  match i with
  | .I8_Const d _ | .I16_Const d _ | .I32_Const d _ | .I64_Const d _ | .I128_Const d _ => d == r
  | .Cmp _ _ d _ _ => d == r
  | .MovSS _ d _ => d == r
  | .MovPS _ d _ _ => d == r
  | .MovSP _ _ _ _ => false
  | .SlotAddr d _ => d == r
  | .PointerOffset2 d _ _ => d == r
  | .PointerOffset3 d _ _ => d == r
  | .IndexCalc d _ _ => d == r
  | .IndexCalcDyn d _ _ => d == r
  | .IndexCalcEndPointer d _ _ => d == r
  | .ArrayRepeat _ _ _ => true
  | .MemCompare d _ _ => d == r
  | .Jump _ | .JumpF _ _ | .JumpT _ _ => false
  | .Call _ _ | .CallPtr _ _ => true
  | .VTableFunc d _ _ => d == r
  | .Return | .Skipped | .Bad => false

/-- The result slot is disjoint from the compiler's working set: it lies
below the allocation watermark (so every fresh slot differs from it) and no
bound local (nor a local's length word, one pointer-size above it) sits on
it. -/
def stateSafe (r : Nat) (s : CompState) : Bool :=
  decide (r < s.stackTop) &&
    s.locals.all (fun p => decide (p.2 ≠ r) && decide (p.2 + POINTER_SIZE ≠ r))

/-- State extension that does not write the slot `r`: the previously emitted
code is untouched, everything appended avoids `r`, and the allocation
watermark only grows. -/
def ExtNoWrite (r : Nat) (s s₂ : CompState) : Prop :=
  s₂.outBc.take s.outBc.length = s.outBc ∧
  (∀ i ∈ s₂.outBc.drop s.outBc.length, writesTo i r = false) ∧
  s.stackTop ≤ s₂.stackTop

/-- Property of a pattern matcher: an irrefutable (`false`) run on an
or-free pattern, with aliasing disabled (as the entry points fix it),
extends the state without writing the supplied result slot. -/
def MPNoWrite (mp : Pattern → Place → Bool → Option Nat → CompState →
    Except String (Bool × CompState)) : Prop :=
  ∀ p pl r s s₂, orFree p = true → stateSafe r s = true →
    mp p pl false (some r) s = .ok (false, s₂) →
    ExtNoWrite r s s₂ ∧ stateSafe r s₂ = true

/-! ## Trait resolution (`Item::find_trait_impl`, `src/items.rs` lines 1104-1336)

`update_tys` is omitted: the only code that would consume it inside
`check_trait_impl` is commented out in the source, so the parameter is
dead plumbing in the embedded fragment. -/

inductive SubSide where
  | Lhs
  | Rhs
  deriving DecidableEq

/-- `SubMap`: the unification map filled by `type_match`. -/
structure SubMap where
  map : List ((SubSide × Nat) × Ty)

/-- `SubMap::set`: record a binding; rebinding the same key to a different
type is the source's `assert!(*ev == val)` panic. -/
def SubMap.set (m : SubMap) (side : SubSide) (n : Nat) (val : Ty) : Except String SubMap :=
  match m.map.find? (fun e => e.1 == (side, n)) with
  | some e => if Ty.beq e.2 val then pure m else throw "SubMap::set conflicting binding"
  | none => pure ⟨m.map ++ [((side, n), val)]⟩

/-- `target_subs.list[n] = Sub::Type(val)`; indexing out of range panics. -/
def SubL.setAt : SubL → Nat → Subst → Except String SubL
  | .nil, _, _ => throw "substitution index out of range"
  | .cons _ tl, 0, v => pure (.cons v tl)
  | .cons hd tl, n + 1, v => do
    let tl2 ← SubL.setAt tl n v
    pure (.cons hd tl2)

/-- `SubMap::apply_to`: overwrite the entries of `target` recorded on the
given side. -/
def SubMap.applyTo (m : SubMap) (side : SubSide) (target : SubL) : Except String SubL :=
  m.map.foldlM
    (fun acc e => if e.1.1 = side then SubL.setAt acc e.1.2 (.Type e.2) else pure acc) target

/-- `SubMap::assert_empty`: panics when any entry sits on the given side. -/
def SubMap.assertEmpty (m : SubMap) (side : SubSide) : Except String Unit :=
  if m.map.any (fun e => e.1.1 == side) then throw "SubMap::assert_empty failed"
  else pure ()

/-- The heads enumerated by `type_match`'s catch-false arms (`items.rs`
lines 1315-1332): a non-structural pair is a definite mismatch when either
side is one of these, and the source's `panic!("match types ...")`
otherwise. -/
def Ty.inMatchFalseSet (t : Ty) :=
  match t with
  | .Adt _ _ | .Ptr _ _ | .Ref _ _ | .Bool | .Char | .Never | .Int _ _ | .Float _ => true
  | _ => false

mutual
/-- `type_match` (`items.rs` 1277-1336): loose structural comparison that
binds `Param`s on either side into the map. -/
def type_match (lhs rhs : Ty) (m : SubMap) : Except String (Bool × SubMap) :=
  if lhs.isConcrete && Ty.beq lhs rhs then pure (true, m)
  else
    match lhs, rhs with
    | .Adt a asubs, .Adt b bsubs =>
      if a = b then subs_match asubs bsubs m else pure (false, m)
    | .Ptr l lmut, .Ptr r rmut =>
      if lmut = rmut then type_match l r m else pure (false, m)
    | .Ref l lmut, .Ref r rmut =>
      if lmut = rmut then type_match l r m else pure (false, m)
    | .Slice l, .Slice r => type_match l r m
    | .Tuple ls, .Tuple rs =>
      if ls.length = rs.length then typeL_match ls rs m else pure (false, m)
    | .Param _, .Param _ => throw "fixme? this looks annoying"
    | l, .Param n => do
      let m2 ← SubMap.set m .Rhs n l
      pure (true, m2)
    | .Param n, r => do
      let m2 ← SubMap.set m .Lhs n r
      pure (true, m2)
    | l, r =>
      if l.inMatchFalseSet || r.inMatchFalseSet then pure (false, m)
      else throw "match types"

/-- The tuple-children loop of `type_match` (lengths already equal). -/
def typeL_match : TyL → TyL → SubMap → Except String (Bool × SubMap)
  | .nil, _, m => pure (true, m)
  | .cons _ _, .nil, m => pure (true, m)
  | .cons l ls, .cons r rs, m => do
    let r1 ← type_match l r m
    if r1.1 then typeL_match ls rs r1.2 else pure (false, r1.2)

/-- `subs_match`: zip the two lists; `Type`/`Type` pairs go through
`type_match`, anything else must be equal. -/
def subs_match : SubL → SubL → SubMap → Except String (Bool × SubMap)
  | .nil, _, m => pure (true, m)
  | .cons _ _, .nil, m => pure (true, m)
  | .cons (.Type l) ls, .cons (.Type r) rs, m => do
    let r1 ← type_match l r m
    if r1.1 then subs_match ls rs r1.2 else pure (false, r1.2)
  | .cons a as, .cons b bs, m =>
    if Subst.beq a b then subs_match as bs m else pure (false, m)
end

/-- `trait_match`: run `subs_match` on a fresh map. -/
def trait_match (lhs rhs : SubL) : Except String (Option SubMap) := do
  let r ← subs_match lhs rhs ⟨[]⟩
  if r.1 then pure (some r.2) else pure none

/-- Modelled from the spec: `SubList::from_summary` builds the candidate's
own generic-parameter list `Param 0, …, Param (n-1)`; lifetime and const
generics do not participate in the embedded fragment. -/
def SubL.fromSummaryAux : Nat → Nat → SubL
  | _, 0 => .nil
  | i, n + 1 => .cons (.Type (.Param i)) (SubL.fromSummaryAux (i + 1) n)

def SubL.fromSummary (n : Nat) : SubL := SubL.fromSummaryAux 0 n

/-- A bound on a trait impl (`BoundKind`): a trait bound or an
associated-type projection (the associated-type item is identified by its
trait and member index, per `virtual_info`). -/
inductive BoundE where
  | Trait (traitId : Nat) (subs : SubL)
  | Projection (assocTraitId : Nat) (memberIndex : Nat) (subs : SubL) (eqTy : Ty)

/-- `TraitImpl`: the candidate's `for_types`, generic counts (types only),
bounds and assoc values. -/
structure TraitImplE where
  forTypes : SubL
  genericsTypes : Nat
  bounds : List BoundE
  assocValues : List (Option Ty)

/-- A trait item's resolution-relevant state: the declared impl list and
the optional builtin candidate producer (`builtin.get()` +
`find_candidate`, whose structural rules live outside the embedded
fragment). -/
structure TraitData where
  implList : List TraitImplE
  builtin : Option (SubL → Option TraitImplE)

/-- The trait items reachable during resolution, by item id. -/
def TraitEnv := Nat → TraitData

/-- The bound-checking loop of `check_trait_impl` (`items.rs` 1147-1175),
parameterized by the recursive resolution entry points. -/
def checkBounds (hasImpl : Nat → SubL → Except String Bool)
    (resolveAssoc : Nat → Nat → SubL → Except String Ty) :
    List BoundE → SubL → Except String (Option SubL)
  | [], traitSubs => pure (some traitSubs)
  | .Trait tid bsubs :: rest, traitSubs => do
    let typesToCheck := SubL.sub bsubs traitSubs
    let res ← hasImpl tid typesToCheck
    if res then checkBounds hasImpl resolveAssoc rest traitSubs
    else pure none
  | .Projection atid mi asubs eqTy :: rest, traitSubs => do
    let typesToCheck := SubL.sub asubs traitSubs
    let resolved ← resolveAssoc atid mi typesToCheck
    let r ← type_match resolved eqTy ⟨[]⟩
    if !r.1 then throw "unmatched associated type"
    else do
      let _ ← r.2.assertEmpty .Lhs
      let traitSubs2 ← r.2.applyTo .Rhs traitSubs
      checkBounds hasImpl resolveAssoc rest traitSubs2

/-- `check_trait_impl` (`items.rs` 1137-1191): unify the query against the
candidate's `for_types`, build the candidate's substitution list, check
each bound in order, and assert the final list concrete. -/
def check_trait_impl (hasImpl : Nat → SubL → Except String Bool)
    (resolveAssoc : Nat → Nat → SubL → Except String Ty)
    (forTys : SubL) (candidate : TraitImplE) : Except String (Option SubL) := do
  match ← trait_match forTys candidate.forTypes with
  | some subMap => do
    let traitSubs ← subMap.applyTo .Rhs (SubL.fromSummary candidate.genericsTypes)
    match ← checkBounds hasImpl resolveAssoc candidate.bounds traitSubs with
    | some traitSubs2 =>
      if SubL.isConcrete traitSubs2 then pure (some traitSubs2)
      else throw "assert trait_subs.is_concrete() failed"
    | none => pure none
  | none => pure none

/-- The impl-list loop of `find_trait_impl`: return the first candidate the
check accepts. -/
def findImplLoop (check : TraitImplE → Except String (Option SubL)) :
    List TraitImplE → Except String (Option (TraitImplE × SubL))
  | [] => pure none
  | c :: rest => do
    match ← check c with
    | some subs => pure (some (c, subs))
    | none => findImplLoop check rest

/-- `find_trait_impl` (`items.rs` 1104-1134): try the synthetic builtin
candidate first (when the trait is tagged builtin), then the declared impl
list in order.  Mutual recursion through bounds and associated types is
paid for with fuel. -/
def find_trait_impl (env : TraitEnv) :
    Nat → Nat → SubL → Except String (Option (TraitImplE × SubL))
  | 0, _, _ => throw "recursion fuel exhausted"
  | fuel + 1, traitId, forTys => do
    let check := check_trait_impl
      (fun tid tys => do
        match ← find_trait_impl env fuel tid tys with
        | some _ => pure true
        | none => pure false)
      (fun tid mi tys => do
        match ← find_trait_impl env fuel tid tys with
        | some r =>
          match r.1.assocValues.get? mi with
          | some (some ty) => pure (Ty.sub ty r.2)
          | _ => throw "failed to find associated type"
        | none => throw "failed to resolve associated type")
      forTys
    let builtinRes ← (match (env traitId).builtin with
      | some fc =>
        match fc forTys with
        | some candidate => do
          match ← check candidate with
          | some traitSubs => pure (some (candidate, traitSubs))
          | none => pure none
        | none => pure none
      | none => pure none)
    match builtinRes with
    | some r => pure (some r)
    | none => findImplLoop check (env traitId).implList

/-- `Item::trait_has_impl`: resolution succeeds. -/
def Item.trait_has_impl (env : TraitEnv) (fuel : Nat) (traitId : Nat) (forTys : SubL) :
    Except String Bool := do
  match ← find_trait_impl env fuel traitId forTys with
  | some _ => pure true
  | none => pure false

/-- `Item::resolve_associated_ty`: resolve through the trait machinery and
substitute into the selected impl's assoc value (panics when absent). -/
def Item.resolve_associated_ty (env : TraitEnv) (fuel : Nat)
    (traitId memberIndex : Nat) (subs : SubL) : Except String Ty := do
  match ← find_trait_impl env fuel traitId subs with
  | some r =>
    match r.1.assocValues.get? memberIndex with
    | some (some ty) => pure (Ty.sub ty r.2)
    | _ => throw "failed to find associated type"
  | none => throw "failed to resolve associated type"

/-- The builtin candidate of `find_trait_impl`, as a zero-or-one element
prefix of the candidate order. -/
def builtinCandidate (env : TraitEnv) (traitId : Nat) (forTys : SubL) : List TraitImplE :=
  match (env traitId).builtin with
  | some fc =>
    match fc forTys with
    | some c => [c]
    | none => []
  | none => []

/-- A two-impl example trait: `impl Trait for char` … -/
def exImplA : TraitImplE := ⟨.cons (.Type .Char) .nil, 0, [], []⟩

/-- … and the blanket `impl<T> Trait for T`. -/
def exImplB : TraitImplE := ⟨.cons (.Type (.Param 0)) .nil, 1, [], []⟩

/-- The trait environment holding the two example impls (no builtin tag). -/
def exTraitEnv : TraitEnv := fun _ => ⟨[exImplA, exImplB], none⟩

/-! ## Theorems -/

theorem le_alignUp (x : Nat) {a : Nat} (ha : 1 ≤ a) : x ≤ alignUp x a := by
  unfold alignUp
  have h1 := Nat.div_add_mod (x + a - 1) a
  have h2 : (x + a - 1) % a < a := Nat.mod_lt _ (by omega)
  have h3 : (x + a - 1) / a * a = a * ((x + a - 1) / a) := Nat.mul_comm _ _
  omega

theorem dvd_alignUp (x a : Nat) : a ∣ alignUp x a := Dvd.intro_left _ rfl

theorem alignUp_eq_self {x a : Nat} (ha : 1 ≤ a) (h : a ∣ x) : alignUp x a = x := by
  obtain ⟨k, rfl⟩ := h
  unfold alignUp
  have h1 : a * k + a - 1 = (a - 1) + a * k := by omega
  rw [h1, Nat.add_mul_div_left _ _ (by omega : 0 < a),
    Nat.div_eq_of_lt (by omega), Nat.zero_add, Nat.mul_comm]

mutual
theorem Ty.beq_refl : ∀ (t : Ty), Ty.beq t t = true
  | .Int _ _ => by simp [Ty.beq]
  | .Float _ => by simp [Ty.beq]
  | .Bool => by simp [Ty.beq]
  | .Char => by simp [Ty.beq]
  | .Never => by simp [Ty.beq]
  | .Tuple c => by simp [Ty.beq, TyL.beq_refl_tyl c]
  | .Array e _ => by simp [Ty.beq, Ty.beq_refl e]
  | .Slice e => by simp [Ty.beq, Ty.beq_refl e]
  | .StringSlice => by simp [Ty.beq]
  | .Ref t _ => by simp [Ty.beq, Ty.beq_refl t]
  | .Ptr t _ => by simp [Ty.beq, Ty.beq_refl t]
  | .Adt _ s => by simp [Ty.beq, SubL.beq_refl_subl s]
  | .FunctionDef _ s => by simp [Ty.beq, SubL.beq_refl_subl s]
  | .Closure _ s => by simp [Ty.beq, SubL.beq_refl_subl s]
  | .Param _ => by simp [Ty.beq]

theorem Subst.beq_refl_subst : ∀ (s : Subst), Subst.beq s s = true
  | .Type t => by simp [Subst.beq, Ty.beq_refl t]
  | .Lifetime => by simp [Subst.beq]
  | .Const _ => by simp [Subst.beq]

theorem TyL.beq_refl_tyl : ∀ (l : TyL), TyL.beq l l = true
  | .nil => by simp [TyL.beq]
  | .cons h t => by simp [TyL.beq, Ty.beq_refl h, TyL.beq_refl_tyl t]

theorem SubL.beq_refl_subl : ∀ (l : SubL), SubL.beq l l = true
  | .nil => by simp [SubL.beq]
  | .cons h t => by simp [SubL.beq, Subst.beq_refl_subst h, SubL.beq_refl_subl t]
end

theorem SubL.isConcrete_get : ∀ (l : SubL), l.isConcrete = true → ∀ {n : Nat} {s : Subst},
    l.get? n = some s → s.isConcrete = true
  | .nil, _, n, s, h => by simp [SubL.get?] at h
  | .cons hd tl, hl, n, s, h => by
    simp only [SubL.isConcrete, Bool.and_eq_true] at hl
    match n, h with
    | 0, h =>
      simp only [SubL.get?, Option.some.injEq] at h
      exact h ▸ hl.1
    | n + 1, h => exact SubL.isConcrete_get tl hl.2 h

mutual
/-- Substituting a fully concrete, covering substitution list into any type
produces a concrete type: the lemma behind the invariant that all types
flowing through a monomorphic compile are concrete. -/
theorem Ty.sub_concrete : ∀ (t : Ty) (subs : SubL), subs.isConcrete = true →
    t.substOk subs = true → (t.sub subs).isConcrete = true
  | .Int _ _, _, _, _ => by simp [Ty.sub, Ty.isConcrete]
  | .Float _, _, _, _ => by simp [Ty.sub, Ty.isConcrete]
  | .Bool, _, _, _ => by simp [Ty.sub, Ty.isConcrete]
  | .Char, _, _, _ => by simp [Ty.sub, Ty.isConcrete]
  | .Never, _, _, _ => by simp [Ty.sub, Ty.isConcrete]
  | .StringSlice, _, _, _ => by simp [Ty.sub, Ty.isConcrete]
  | .Tuple c, subs, hc, hb => by
    simpa [Ty.sub, Ty.isConcrete] using
      TyL.sub_concrete_tyl c subs hc (by simpa [Ty.substOk] using hb)
  | .Array e _, subs, hc, hb => by
    simpa [Ty.sub, Ty.isConcrete] using
      Ty.sub_concrete e subs hc (by simpa [Ty.substOk] using hb)
  | .Slice e, subs, hc, hb => by
    simpa [Ty.sub, Ty.isConcrete] using
      Ty.sub_concrete e subs hc (by simpa [Ty.substOk] using hb)
  | .Ref t _, subs, hc, hb => by
    simpa [Ty.sub, Ty.isConcrete] using
      Ty.sub_concrete t subs hc (by simpa [Ty.substOk] using hb)
  | .Ptr t _, subs, hc, hb => by
    simpa [Ty.sub, Ty.isConcrete] using
      Ty.sub_concrete t subs hc (by simpa [Ty.substOk] using hb)
  | .Adt _ s, subs, hc, hb => by
    simpa [Ty.sub, Ty.isConcrete] using
      SubL.sub_concrete_subl s subs hc (by simpa [Ty.substOk] using hb)
  | .FunctionDef _ s, subs, hc, hb => by
    simpa [Ty.sub, Ty.isConcrete] using
      SubL.sub_concrete_subl s subs hc (by simpa [Ty.substOk] using hb)
  | .Closure _ s, subs, hc, hb => by
    simpa [Ty.sub, Ty.isConcrete] using
      SubL.sub_concrete_subl s subs hc (by simpa [Ty.substOk] using hb)
  | .Param n, subs, hc, hb => by
    simp only [Ty.substOk] at hb
    match hg : subs.get? n with
    | some (.Type t) =>
      have hsc := SubL.isConcrete_get subs hc hg
      simpa [Ty.sub, hg, Subst.isConcrete] using hsc
    | some .Lifetime => rw [hg] at hb; simp at hb
    | some (.Const _) => rw [hg] at hb; simp at hb
    | none => rw [hg] at hb; simp at hb

theorem Subst.sub_concrete_subst : ∀ (s : Subst) (subs : SubL), subs.isConcrete = true →
    s.substOk subs = true → (s.subst subs).isConcrete = true
  | .Type t, subs, hc, hb => by
    simpa [Subst.subst, Subst.isConcrete] using
      Ty.sub_concrete t subs hc (by simpa [Subst.substOk] using hb)
  | .Lifetime, _, _, _ => by simp [Subst.subst, Subst.isConcrete]
  | .Const _, _, _, _ => by simp [Subst.subst, Subst.isConcrete]

theorem TyL.sub_concrete_tyl : ∀ (l : TyL) (subs : SubL), subs.isConcrete = true →
    l.substOk subs = true → (l.sub subs).isConcrete = true
  | .nil, _, _, _ => by simp [TyL.sub, TyL.isConcrete]
  | .cons hd tl, subs, hc, hb => by
    simp only [TyL.substOk, Bool.and_eq_true] at hb
    simp [TyL.sub, TyL.isConcrete, Ty.sub_concrete hd subs hc hb.1,
      TyL.sub_concrete_tyl tl subs hc hb.2]

theorem SubL.sub_concrete_subl : ∀ (l : SubL) (subs : SubL), subs.isConcrete = true →
    l.substOk subs = true → (l.sub subs).isConcrete = true
  | .nil, _, _, _ => by simp [SubL.sub, SubL.isConcrete]
  | .cons hd tl, subs, hc, hb => by
    simp only [SubL.substOk, Bool.and_eq_true] at hb
    simp [SubL.sub, SubL.isConcrete, Subst.sub_concrete_subst hd subs hc hb.1,
      SubL.sub_concrete_subl tl subs hc hb.2]
end


/-- C2 counterexample: bytecode publication is an unconditional store, not a
compare-and-set.  Starting from an unpublished `Function`, a first publication
of `[Return]` followed by a second publication of `[Bad]` leaves `[Bad]` in
the cell: the second store takes effect and replaces the already-published
bytecode, contradicting "exactly one store takes effect / once published the
bytecode is never replaced". -/
theorem set_bytecode_second_store_wins :
    (Function.set_bytecode
      (Function.set_bytecode ⟨none, none⟩ [Instr.Return]) [Instr.Bad]).bytecode
      = some [Instr.Bad]
    ∧ (some [Instr.Bad] : Option (List Instr)) ≠ some [Instr.Return] := by
  refine ⟨rfl, ?_⟩
  simp only [ne_eq, Option.some.injEq]
  intro h
  exact absurd (List.head_eq_of_cons_eq h) (by intro h2; cases h2)

/-- C2 amended: `set_bytecode` is an unconditional release store (a racing
publisher's later store replaces the earlier one), acquire loads observe the
store, and the `Function::bytecode` path publishes only when no bytecode is
visible, returning an already-published vector untouched. -/
theorem set_bytecode_store_semantics (f : FnState) (bc₁ bc₂ : List Instr) :
    (Function.set_bytecode (Function.set_bytecode f bc₁) bc₂).bytecode = some bc₂
    ∧ Function.get_bytecode (Function.set_bytecode f bc₁) = some bc₁
    ∧ Function.bytecode bc₂ (Function.set_bytecode f bc₁)
        = (bc₁, Function.set_bytecode f bc₁)
    ∧ Function.bytecode bc₂ ⟨f.native, none⟩
        = (bc₂, Function.set_bytecode ⟨f.native, none⟩ bc₂) := by
  refine ⟨rfl, rfl, rfl, rfl⟩

/-- C3: `func_mono` returns the same handle on repeated calls with the same
substitution list - the monomorphization cache maps each `(item, subs)` pair
to a unique `Function` handle. -/
theorem func_mono_idempotent (cache : MonoCache) (arena : FuncArena) (subs : SubL) :
    (Item.func_mono (Item.func_mono cache arena subs).2.1
      (Item.func_mono cache arena subs).2.2 subs).1
      = (Item.func_mono cache arena subs).1 := by
  unfold Item.func_mono
  cases hfind : cache.entries.find? (fun e => SubL.beq e.1 subs) with
  | some e => simp [hfind]
  | none =>
    simp only [hfind, List.find?_append, Option.none_or]
    simp [List.find?, SubL.beq_refl_subl subs, VM.alloc_function]

/-- C1: the closure IR specialization prepends a by-reference `self`
parameter for `Fn` (shared) and `FnMut` (mutable), but the `FnOnce` arm of
`build_ir_for_trait` is the unimplemented `panic!("todo self ty")`: invoking
it with `FnOnce` fails instead of passing the environment by value. -/
theorem build_ir_for_trait_fnonce_panics (irIn : IRFunction) (selfTy : Ty) :
    build_ir_for_trait irIn .FnOnce selfTy = .error "todo self ty"
    ∧ (∃ r, build_ir_for_trait irIn .Fn selfTy = .ok r ∧
        r.sig.inputs = .cons (Ty.Ref selfTy false) (.cons (Ty.Tuple irIn.sig.inputs) .nil)
        ∧ r.closureKind = some .Fn)
    ∧ (∃ r, build_ir_for_trait irIn .FnMut selfTy = .ok r ∧
        r.sig.inputs = .cons (Ty.Ref selfTy true) (.cons (Ty.Tuple irIn.sig.inputs) .nil)
        ∧ r.closureKind = some .FnMut) := by
  refine ⟨rfl, ⟨_, rfl, rfl, rfl⟩, ⟨_, rfl, rfl, rfl⟩⟩

/-- C9: the modelled instruction type (the current instruction set, which
`src/bytecode_compiler.rs` emits; the checked-in `src/vm/instr.rs` is an
older revision lacking the second group) contains, besides `Call`, `Jump`,
`JumpF`, `JumpT`, `Return` and `SlotAddr`, the indirect-call and
memory/layout variants `CallPtr`, `VTableFunc`, `PointerOffset2`,
`PointerOffset3`, `IndexCalc`, `IndexCalcDyn`, `IndexCalcEndPointer`,
`ArrayRepeat` and `MemCompare`. -/
theorem instr_variant_names :
    (Instr.Call 0 0).tag = "Call"
    ∧ (Instr.Jump 0).tag = "Jump"
    ∧ (Instr.JumpF 0 0).tag = "JumpF"
    ∧ (Instr.JumpT 0 0).tag = "JumpT"
    ∧ Instr.Return.tag = "Return"
    ∧ (Instr.SlotAddr 0 0).tag = "SlotAddr"
    ∧ (Instr.CallPtr 0 0).tag = "CallPtr"
    ∧ (Instr.VTableFunc 0 0 0).tag = "VTableFunc"
    ∧ (Instr.PointerOffset2 0 0 0).tag = "PointerOffset2"
    ∧ (Instr.PointerOffset3 0 0 0).tag = "PointerOffset3"
    ∧ (Instr.IndexCalc 0 0 0).tag = "IndexCalc"
    ∧ (Instr.IndexCalcDyn 0 0 0).tag = "IndexCalcDyn"
    ∧ (Instr.IndexCalcEndPointer 0 0 0).tag = "IndexCalcEndPointer"
    ∧ (Instr.ArrayRepeat 0 0 0).tag = "ArrayRepeat"
    ∧ (Instr.MemCompare 0 0 0).tag = "MemCompare" := by
  repeat constructor

theorem allocLayout_base (s : CompState) (l : Layout) :
    (s.allocLayout l).1 = alignUp s.stackTop l.align ∧
    (s.allocLayout l).2.stackTop = alignUp s.stackTop l.align + l.size ∧
    (s.allocLayout l).2.outBc = s.outBc ∧
    (s.allocLayout l).2.locals = s.locals := by
  refine ⟨rfl, rfl, rfl, rfl⟩

theorem buildCallAllocArgs_chain (ctx : CompCtx)
    (hAlign : ∀ t, 1 ≤ (ctx.layoutOf t).align) :
    ∀ (argsList : List Nat) (ov : Option Nat) (i : Nat) (s : CompState),
      allocChainB s.stackTop
        ((buildCallAllocArgs ctx argsList ov i s).1.map
          (fun p => (p.1, (ctx.layoutOf p.2).size))) = true
  | [], _, _, _ => rfl
  | a :: rest, ov, i, s => by
    simp only [buildCallAllocArgs, List.map, allocChainB, Bool.and_eq_true, decide_eq_true_eq]
    constructor
    · exact le_alignUp _ (hAlign _)
    · have := buildCallAllocArgs_chain ctx hAlign rest ov (i + 1)
        ((s.allocLayout (ctx.layoutOf (if i = 0 ∧ ov.isSome then usizeTy else ctx.exprTy a))).2)
      simpa [CompState.allocLayout, CompState.align] using this

theorem buildCallAllocArgs_outBc (ctx : CompCtx) :
    ∀ (argsList : List Nat) (ov : Option Nat) (i : Nat) (s : CompState),
      (buildCallAllocArgs ctx argsList ov i s).2.outBc = s.outBc
  | [], _, _, _ => rfl
  | a :: rest, ov, i, s => by
    simp only [buildCallAllocArgs]
    rw [buildCallAllocArgs_outBc ctx rest ov (i + 1)]
    rfl

theorem buildCallCopies_outBc (ctx : CompCtx) :
    ∀ (srcs : List Nat) (dsts : List (Nat × Ty)) (s : CompState),
      (buildCallCopies ctx srcs dsts s).outBc = s.outBc ++ callCopies ctx srcs dsts
  | [], _, s => by cases s; simp [buildCallCopies, callCopies]
  | _ :: _, [], s => by simp [buildCallCopies, callCopies]
  | src :: srcs, (dst, ty) :: dsts, s => by
    simp only [buildCallCopies, callCopies]
    rw [buildCallCopies_outBc ctx srcs dsts]
    cases h : bytecodeSelect.copy dst src (ctx.layoutOf ty).size with
    | none => simp [CompState.pushOpt]
    | some i => simp [CompState.pushOpt, CompState.push]

/-- C8: `build_call` first evaluates every argument (producing the state
`s₁`), then allocates the return slot at the 16-byte-aligned base
`alignUp s₁.top 16` (which is what it returns), then allocates the argument
slots in declaration order chained immediately after the return slot, and
finally appends exactly the argument copies to the instruction stream. -/
theorem build_call_spec (ctx : CompCtx) (resTy : Ty) (argsList : List Nat)
    (ov : Option Nat) (s : CompState)
    (hAlign : ∀ t, 1 ≤ (ctx.layoutOf t).align)
    (hRes : (ctx.layoutOf resTy).align ∣ 16) :
    ∃ retSlot s',
      build_call ctx resTy argsList ov s = .ok (retSlot, s') ∧
      retSlot = alignUp (buildCallEvalArgs ctx argsList ov 0 s).2.stackTop 16 ∧
      16 ∣ retSlot ∧
      allocChainB (retSlot + (ctx.layoutOf resTy).size)
        ((buildCallAllocArgs ctx argsList ov 0
            ((((buildCallEvalArgs ctx argsList ov 0 s).2.align 16).allocLayout
              (ctx.layoutOf resTy)).2)).1.map
          (fun p => (p.1, (ctx.layoutOf p.2).size))) = true ∧
      s'.outBc = (buildCallEvalArgs ctx argsList ov 0 s).2.outBc ++
        callCopies ctx (buildCallEvalArgs ctx argsList ov 0 s).1
          (buildCallAllocArgs ctx argsList ov 0
            (((buildCallEvalArgs ctx argsList ov 0 s).2.align 16).allocLayout
              (ctx.layoutOf resTy)).2).1 := by
  have hb1 : ((buildCallEvalArgs ctx argsList ov 0 s).2.align 16).stackTop
      = alignUp (buildCallEvalArgs ctx argsList ov 0 s).2.stackTop 16 := rfl
  have hbase : (((buildCallEvalArgs ctx argsList ov 0 s).2.align 16).allocLayout
        (ctx.layoutOf resTy)).1
      = alignUp (buildCallEvalArgs ctx argsList ov 0 s).2.stackTop 16 := by
    rw [(allocLayout_base _ _).1, hb1]
    exact alignUp_eq_self (hAlign resTy) (dvd_trans hRes (dvd_alignUp _ _))
  refine ⟨alignUp (buildCallEvalArgs ctx argsList ov 0 s).2.stackTop 16,
    buildCallCopies ctx (buildCallEvalArgs ctx argsList ov 0 s).1
      (buildCallAllocArgs ctx argsList ov 0
        ((((buildCallEvalArgs ctx argsList ov 0 s).2.align 16).allocLayout
          (ctx.layoutOf resTy)).2)).1
      (buildCallAllocArgs ctx argsList ov 0
        ((((buildCallEvalArgs ctx argsList ov 0 s).2.align 16).allocLayout
          (ctx.layoutOf resTy)).2)).2,
    ?_, rfl, dvd_alignUp _ _, ?_, ?_⟩
  · unfold build_call
    simp only [CompState.alignForCall, hb1, hbase, ne_eq]
    simp only [not_true_eq_false, if_false, ite_self, if_neg, reduceIte]
    rfl
  · have hchain := buildCallAllocArgs_chain ctx hAlign argsList ov 0
      ((((buildCallEvalArgs ctx argsList ov 0 s).2.align 16).allocLayout
        (ctx.layoutOf resTy)).2)
    have htop : ((((buildCallEvalArgs ctx argsList ov 0 s).2.align 16).allocLayout
          (ctx.layoutOf resTy)).2).stackTop
        = alignUp (buildCallEvalArgs ctx argsList ov 0 s).2.stackTop 16
            + (ctx.layoutOf resTy).size := by
      rw [(allocLayout_base _ _).2.1, hb1,
        alignUp_eq_self (hAlign resTy) (dvd_trans hRes (dvd_alignUp _ _))]
    rw [htop] at hchain
    exact hchain
  · rw [buildCallCopies_outBc, buildCallAllocArgs_outBc,
      (allocLayout_base _ _).2.2.1]
    rfl

/-- Witness for `build_call_spec` at a concrete compile: one argument, all
layouts 4-byte, no override, empty initial state. -/
theorem build_call_spec_witness :
    ∃ retSlot s',
      build_call ⟨fun _ => ⟨4, 4, .single []⟩, fun _ => none, fun _ s => (0, s),
          fun _ => .Bool, fun _ => 0, .nil⟩ .Bool [1] none ⟨[], [], 0, []⟩
        = .ok (retSlot, s') ∧
      retSlot = alignUp (buildCallEvalArgs ⟨fun _ => ⟨4, 4, .single []⟩, fun _ => none,
          fun _ s => (0, s), fun _ => .Bool, fun _ => 0, .nil⟩ [1] none 0 ⟨[], [], 0, []⟩).2.stackTop 16 ∧
      16 ∣ retSlot ∧
      allocChainB (retSlot + 4)
        ((buildCallAllocArgs ⟨fun _ => ⟨4, 4, .single []⟩, fun _ => none, fun _ s => (0, s),
            fun _ => .Bool, fun _ => 0, .nil⟩ [1] none 0
            (((buildCallEvalArgs ⟨fun _ => ⟨4, 4, .single []⟩, fun _ => none, fun _ s => (0, s),
                fun _ => .Bool, fun _ => 0, .nil⟩ [1] none 0 ⟨[], [], 0, []⟩).2.align 16).allocLayout
              ⟨4, 4, .single []⟩).2).1.map (fun p => (p.1, 4))) = true ∧
      s'.outBc = (buildCallEvalArgs ⟨fun _ => ⟨4, 4, .single []⟩, fun _ => none, fun _ s => (0, s),
          fun _ => .Bool, fun _ => 0, .nil⟩ [1] none 0 ⟨[], [], 0, []⟩).2.outBc ++
        callCopies ⟨fun _ => ⟨4, 4, .single []⟩, fun _ => none, fun _ s => (0, s),
            fun _ => .Bool, fun _ => 0, .nil⟩
          (buildCallEvalArgs ⟨fun _ => ⟨4, 4, .single []⟩, fun _ => none, fun _ s => (0, s),
              fun _ => .Bool, fun _ => 0, .nil⟩ [1] none 0 ⟨[], [], 0, []⟩).1
          (buildCallAllocArgs ⟨fun _ => ⟨4, 4, .single []⟩, fun _ => none, fun _ s => (0, s),
              fun _ => .Bool, fun _ => 0, .nil⟩ [1] none 0
            (((buildCallEvalArgs ⟨fun _ => ⟨4, 4, .single []⟩, fun _ => none, fun _ s => (0, s),
                fun _ => .Bool, fun _ => 0, .nil⟩ [1] none 0 ⟨[], [], 0, []⟩).2.align 16).allocLayout
              ⟨4, 4, .single []⟩).2).1 :=
  build_call_spec ⟨fun _ => ⟨4, 4, .single []⟩, fun _ => none, fun _ s => (0, s),
    fun _ => .Bool, fun _ => 0, .nil⟩ .Bool [1] none ⟨[], [], 0, []⟩
    (fun _ => by norm_num) (by norm_num)

theorem except_bind_ok {α β : Type} {x : Except String α} {f : α → Except String β} {r : β}
    (h : (x >>= f) = .ok r) : ∃ a, x = .ok a ∧ f a = .ok r := by
  cases x with
  | error e => simp [bind, Except.bind] at h
  | ok a => exact ⟨a, rfl, by simpa [bind, Except.bind] using h⟩

theorem matchLiteralValue_ok {ctx : CompCtx} {ty : Ty} {n : Int} {source : Place}
    {rs : Option Nat} {s : CompState} {b : Bool} {s' : CompState}
    (h : matchLiteralValue ctx ty n source rs s = .ok (b, s')) : b = true := by
  unfold matchLiteralValue at h
  cases rs with
  | none => simp [bind, Except.bind, throw, throwThe, MonadExceptOf.throw] at h
  | some rslot =>
    simp only [bind, Except.bind, pure, Except.pure] at h
    injection h with h1
    injection h1 with hb hs
    exact hb.symm

theorem matchNamedConst_ok {ctx : CompCtx} {ty : Ty} {cid : Nat} {source : Place}
    {rs : Option Nat} {s : CompState} {b : Bool} {s' : CompState}
    (h : matchNamedConst ctx ty cid source rs s = .ok (b, s')) : b = true := by
  unfold matchNamedConst at h
  cases rs with
  | none => simp [bind, Except.bind, throw, throwThe, MonadExceptOf.throw] at h
  | some rslot =>
    simp only [bind, Except.bind, pure, Except.pure] at h
    split at h
    · injection h with h1
      injection h1 with hb hs
      exact hb.symm
    · simp at h

theorem matchLiteralBytes_ok {ctx : CompCtx} {ty : Ty} {addr : Int} {len : Nat}
    {source : Place} {rs : Option Nat} {s : CompState} {b : Bool} {s' : CompState}
    (h : matchLiteralBytes ctx ty addr len source rs s = .ok (b, s')) : b = true := by
  unfold matchLiteralBytes at h
  cases rs with
  | none => simp [bind, Except.bind, throw, throwThe, MonadExceptOf.throw] at h
  | some rslot =>
    simp only [bind, Except.bind, pure, Except.pure] at h
    split at h
    · simp at h
    · split at h
      · simp at h
      · injection h with h1
        injection h1 with hb hs
        exact hb.symm

theorem matchRange_ok {ctx : CompCtx} {ty : Ty} {start stop : Option Nat} {inc : Bool}
    {source : Place} {rs : Option Nat} {s : CompState} {b : Bool} {s' : CompState}
    (h : matchRange ctx ty start stop inc source rs s = .ok (b, s')) : b = true := by
  unfold matchRange at h
  cases rs with
  | none => simp [bind, Except.bind, throw, throwThe, MonadExceptOf.throw] at h
  | some rslot =>
    simp only [bind, Except.bind, pure, Except.pure] at h
    cases stop with
    | some e =>
      cases start with
      | some st =>
        simp only at h
        injection h with h1
        injection h1 with hb hs
        exact hb.symm
      | none =>
        simp only at h
        injection h with h1
        injection h1 with hb hs
        exact hb.symm
    | none =>
      cases start with
      | some st =>
        simp only at h
        injection h with h1
        injection h1 with hb hs
        exact hb.symm
      | none => simp at h

theorem matchFieldsAux_refut {subs : SubL}
    {mp : Pattern → Place → Bool → Option Nat → CompState → Except String (Bool × CompState)}
    (H : MPRefutOk subs mp)
    (offsets : List Nat) (source : Place) (ca : Bool) (rs : Option Nat) :
    ∀ (fields : FieldPatL) (gaps : List Nat) (res : Bool) (s : CompState)
      (gaps' : List Nat) (b : Bool) (s' : CompState),
      matchFieldsAux mp offsets source ca rs fields gaps res s = .ok (gaps', b, s') →
      b = (res || codeRefutFields subs fields)
  | .nil, gaps, res, s, gaps', b, s', h => by
    simp only [matchFieldsAux, pure, Except.pure] at h
    injection h with h1
    injection h1 with _ h2
    injection h2 with hb _
    simp [codeRefutFields, ← hb]
  | .cons (.mk fIdx p) tl, gaps, res, s, gaps', b, s', h => by
    simp only [matchFieldsAux, bind, Except.bind, pure, Except.pure] at h
    split at h
    · split at h
      · simp at h
      · next r heq =>
        have hb0 := H _ _ _ _ _ _ _ heq
        split at h
        · have := matchFieldsAux_refut H offsets source ca rs tl _ _ _ _ _ _ h
          simp [this, codeRefutFields, ← hb0, Bool.or_assoc]
        · have := matchFieldsAux_refut H offsets source ca rs tl _ _ _ _ _ _ h
          simp [this, codeRefutFields, ← hb0, Bool.or_assoc]
    · simp at h

theorem matchGroupAux_refut {subs : SubL}
    {mp : Pattern → Place → Bool → Option Nat → CompState → Except String (Bool × CompState)}
    (H : MPRefutOk subs mp)
    (placeOf : Nat → Place) (ca : Bool) (rs : Option Nat) :
    ∀ (pats : PatternL) (i : Nat) (gaps : List Nat) (res : Bool) (s : CompState)
      (gaps' : List Nat) (b : Bool) (s' : CompState),
      matchGroupAux mp placeOf ca rs pats i gaps res s = .ok (gaps', b, s') →
      b = (res || codeRefutL subs pats)
  | .nil, i, gaps, res, s, gaps', b, s', h => by
    simp only [matchGroupAux, pure, Except.pure] at h
    injection h with h1
    injection h1 with _ h2
    injection h2 with hb _
    simp [codeRefutL, ← hb]
  | .cons p tl, i, gaps, res, s, gaps', b, s', h => by
    simp only [matchGroupAux, bind, Except.bind, pure, Except.pure] at h
    split at h
    · simp at h
    · next r heq =>
      have hb0 := H _ _ _ _ _ _ _ heq
      split at h
      · have := matchGroupAux_refut H placeOf ca rs tl _ _ _ _ _ _ _ h
        simp [this, codeRefutL, ← hb0, Bool.or_assoc]
      · have := matchGroupAux_refut H placeOf ca rs tl _ _ _ _ _ _ _ h
        simp [this, codeRefutL, ← hb0, Bool.or_assoc]

theorem matchOrOptionsAux_refut {subs : SubL}
    {mp : Pattern → Place → Bool → Option Nat → CompState → Except String (Bool × CompState)}
    (H : MPRefutOk subs mp)
    (source : Place) (rs : Option Nat) :
    ∀ (options : PatternL) (gaps : List Nat) (s : CompState)
      (gaps' : List Nat) (b : Bool) (s' : CompState),
      matchOrOptionsAux mp source rs options gaps s = .ok (gaps', b, s') →
      b = codeRefutAll subs options
  | .nil, gaps, s, gaps', b, s', h => by
    simp only [matchOrOptionsAux, pure, Except.pure] at h
    injection h with h1
    injection h1 with _ h2
    injection h2 with hb _
    simp [codeRefutAll, ← hb]
  | .cons o tl, gaps, s, gaps', b, s', h => by
    simp only [matchOrOptionsAux, bind, Except.bind, pure, Except.pure] at h
    split at h
    · simp at h
    · next r heq =>
      have hb0 := H _ _ _ _ _ _ _ heq
      split at h
      · next hcond =>
        injection h with h1
        injection h1 with _ h2
        injection h2 with hb _
        simp at hcond
        simp [codeRefutAll, ← hb, ← hb0, hcond]
      · next hcond =>
        have := matchOrOptionsAux_refut H source rs tl _ _ _ _ _ h
        simp at hcond
        simp [this, codeRefutAll, ← hb0, hcond]

theorem matchPatternInternal_refut (ctx : CompCtx) :
    ∀ (fuel : Nat) (p : Pattern) (pl : Place) (ca : Bool) (rs : Option Nat)
      (s : CompState) (b : Bool) (s' : CompState),
      matchPatternInternal ctx fuel p pl ca rs s = .ok (b, s') →
      b = codeRefut ctx.subs p := by
  intro fuel
  induction fuel with
  | zero =>
    intro p pl ca rs s b s' h
    simp [matchPatternInternal, throw, throwThe, MonadExceptOf.throw] at h
  | succ fuel IH =>
    have H : MPRefutOk ctx.subs
        (fun p pl ca rs st => matchPatternInternal ctx fuel p pl ca rs st) :=
      fun p pl ca rs s b s' h => IH p pl ca rs s b s' h
    intro p pl ca rs s b s' h
    obtain ⟨kind, ty⟩ := p
    cases kind with
    | Hole =>
      simp only [matchPatternInternal, pure, Except.pure] at h
      injection h with h1
      injection h1 with hb _
      simp [codeRefut, codeRefutKind, ← hb]
    | LocalBinding lid mode sub =>
      simp only [matchPatternInternal] at h
      obtain ⟨s1, hA, h⟩ := except_bind_ok h
      cases sub with
      | some subp =>
        simp only at h
        have := H subp _ _ _ _ _ _ h
        simp [codeRefut, codeRefutKind, codeRefutOPat, this]
      | none =>
        simp only [pure, Except.pure] at h
        injection h with h1
        injection h1 with hb _
        simp [codeRefut, codeRefutKind, codeRefutOPat, ← hb]
    | Struct fields =>
      simp only [matchPatternInternal] at h
      obtain ⟨offsets, _, h⟩ := except_bind_ok h
      obtain ⟨r, hr, h⟩ := except_bind_ok h
      obtain ⟨g, br, sr⟩ := r
      have hb := matchFieldsAux_refut H offsets pl ca rs fields [] false s _ _ _ hr
      simp only [pure, Except.pure] at h
      injection h with h1
      injection h1 with hb2 _
      simp [codeRefut, codeRefutKind, ← hb2, hb]
    | Enum fields vi =>
      simp only [matchPatternInternal, bind, Except.bind, throw, throwThe,
        MonadExceptOf.throw, pure, Except.pure] at h
      iterate 12 (all_goals try split at h)
      all_goals first
        | exact Except.noConfusion h
        | (injection h with h1
           injection h1 with hb _
           simp [codeRefut, codeRefutKind, ← hb])
    | Or options =>
      simp only [matchPatternInternal] at h
      split at h
      · simp [throw, throwThe, MonadExceptOf.throw] at h
      · obtain ⟨r, hr, h⟩ := except_bind_ok h
        obtain ⟨g, br, sr⟩ := r
        have hb := matchOrOptionsAux_refut H pl rs options [] s _ _ _ hr
        cases rs with
        | some rslot =>
          simp only [pure, Except.pure] at h
          injection h with h1
          injection h1 with hb2 _
          simp [codeRefut, codeRefutKind, ← hb2, hb]
        | none => simp [throw, throwThe, MonadExceptOf.throw] at h
    | DeRef subp =>
      simp only [matchPatternInternal] at h
      cases pl with
      | Local slot =>
        have := H subp _ _ _ _ _ _ h
        simp [codeRefut, codeRefutKind, this]
      | Ptr pslot poff pk =>
        simp only at h
        have := H subp _ _ _ _ _ _ h
        simp [codeRefut, codeRefutKind, this]
    | LiteralValue n =>
      simp only [matchPatternInternal] at h
      have := matchLiteralValue_ok h
      simp [codeRefut, codeRefutKind, this]
    | NamedConst cid =>
      simp only [matchPatternInternal] at h
      have := matchNamedConst_ok h
      simp [codeRefut, codeRefutKind, this]
    | LiteralBytes addr len =>
      simp only [matchPatternInternal] at h
      have := matchLiteralBytes_ok h
      simp [codeRefut, codeRefutKind, this]
    | Range start stop inc =>
      simp only [matchPatternInternal] at h
      have := matchRange_ok h
      simp [codeRefut, codeRefutKind, this]
    | Error msg =>
      simp [matchPatternInternal, throw, throwThe, MonadExceptOf.throw] at h
    | Slice startPats mid endPats =>
      simp only [matchPatternInternal] at h
      split at h
      · next elemTy arrayLen heq =>
        obtain ⟨r1, hr1, h⟩ := except_bind_ok h
        obtain ⟨g1, b1, s1⟩ := r1
        obtain ⟨r2, hr2, h⟩ := except_bind_ok h
        obtain ⟨g2, b2, s2⟩ := r2
        obtain ⟨r3, hr3, h⟩ := except_bind_ok h
        obtain ⟨g3, b3, s3⟩ := r3
        have h1 := matchGroupAux_refut H _ ca rs startPats 0 [] false s _ _ _ hr1
        have h3 := matchGroupAux_refut H _ ca rs endPats 0 g2 b2 s2 _ _ _ hr3
        have h2 : b2 = (b1 || codeRefutOPat ctx.subs mid) := by
          cases mid with
          | none =>
            simp only [pure, Except.pure] at hr2
            injection hr2 with h4
            injection h4 with _ h5
            injection h5 with hb5 _
            simp [codeRefutOPat, ← hb5]
          | some midPat =>
            obtain ⟨u, _, hr2⟩ := except_bind_ok hr2
            obtain ⟨rm, hrm, hr2⟩ := except_bind_ok hr2
            have hbm := H midPat _ _ _ _ _ _ hrm
            split at hr2
            · simp only [pure, Except.pure] at hr2
              injection hr2 with h4
              injection h4 with _ h5
              injection h5 with hb5 _
              simp [codeRefutOPat, ← hb5, hbm]
            · simp only [pure, Except.pure] at hr2
              injection hr2 with h4
              injection h4 with _ h5
              injection h5 with hb5 _
              simp [codeRefutOPat, ← hb5, hbm]
        simp only [pure, Except.pure] at h
        injection h with h4
        injection h4 with hb4 _
        rw [← hb4, h3, h2, h1]
        simp [codeRefut, codeRefutKind, CompCtx.applySubs] at heq ⊢
        try rw [heq]
        try simp [Bool.or_assoc]
      · next elemTy heq =>
        cases pl with
        | Local slot => simp [throw, throwThe, MonadExceptOf.throw] at h
        | Ptr pslot poff pk =>
          simp only at h
          split at h
          · simp [throw, throwThe, MonadExceptOf.throw] at h
          · split at h
            · simp [throw, throwThe, MonadExceptOf.throw] at h
            · obtain ⟨gs, _, h⟩ := except_bind_ok h
              obtain ⟨r1, _, h⟩ := except_bind_ok h
              obtain ⟨s1, _, h⟩ := except_bind_ok h
              obtain ⟨r2, _, h⟩ := except_bind_ok h
              simp only [pure, Except.pure] at h
              injection h with h4
              injection h4 with hb4 _
              rw [← hb4]
              simp [codeRefut, codeRefutKind, CompCtx.applySubs] at heq ⊢
              rw [heq]
      · simp [throw, throwThe, MonadExceptOf.throw] at h

/-- C10: compiling an or-pattern requires at least two options and a
result slot - `match_pattern_internal` fails (panics) on any or-pattern
with fewer than two options or with no result slot supplied, even when one
of its options is irrefutable. -/
theorem or_pattern_needs_options_and_slot (ctx : CompCtx) (options : PatternL) (ty : Ty)
    (source : Place) (canAlias : Bool) (rs : Option Nat) (s : CompState) (fuel : Nat)
    (h : options.length < 2 ∨ rs = none) :
    exceptIsOk (matchPatternInternal ctx fuel (.mk (.Or options) ty) source canAlias rs s)
      = false := by
  cases fuel with
  | zero => rfl
  | succ fuel =>
    simp only [matchPatternInternal]
    by_cases hl : options.length < 2
    · simp [hl, throw, throwThe, MonadExceptOf.throw, exceptIsOk]
    · rcases h with h1 | h2
      · exact absurd h1 hl
      · subst h2
        simp only [hl, if_false, reduceIte]
        cases haux : matchOrOptionsAux
            (fun p pl ca rs st => matchPatternInternal ctx fuel p pl ca rs st)
            source none options [] s with
        | error e => simp [haux, bind, Except.bind, exceptIsOk]
        | ok r =>
          simp [haux, bind, Except.bind, throw, throwThe, MonadExceptOf.throw, exceptIsOk]

/-- Witness for `or_pattern_needs_options_and_slot`: an or-pattern whose
second option is an irrefutable hole (so the or-pattern as a whole is
irrefutable), matched with no result slot, still fails. -/
theorem or_pattern_needs_options_and_slot_witness :
    ((PatternL.cons (.mk (.LiteralValue 1) (.Int 4 true))
        (.cons (.mk .Hole (.Int 4 true)) .nil)).length < 2 ∨ (none : Option Nat) = none)
    ∧ exceptIsOk (matchPatternInternal
        ⟨fun _ => ⟨4, 4, .single []⟩, fun _ => none, fun _ s => (0, s),
          fun _ => .Bool, fun _ => 0, .nil⟩ 10
        (.mk (.Or (.cons (.mk (.LiteralValue 1) (.Int 4 true))
          (.cons (.mk .Hole (.Int 4 true)) .nil))) (.Int 4 true))
        (.Local 20) false none ⟨[], [], 40, []⟩) = false :=
  ⟨Or.inr rfl,
    or_pattern_needs_options_and_slot
      ⟨fun _ => ⟨4, 4, .single []⟩, fun _ => none, fun _ s => (0, s),
        fun _ => .Bool, fun _ => 0, .nil⟩
      (.cons (.mk (.LiteralValue 1) (.Int 4 true))
        (.cons (.mk .Hole (.Int 4 true)) .nil))
      (.Int 4 true) (.Local 20) false none ⟨[], [], 40, []⟩ 10 (Or.inr rfl)⟩

/-- C6 counterexample: the or-pattern `1 | _` (a refutable literal option
followed by an irrefutable hole) has a refutable sub-pattern, so the claim
("refutable iff at least one sub-pattern is refutable") calls it refutable;
the compiler reports it irrefutable (`false`), because an or-pattern is
irrefutable as soon as one option is irrefutable. -/
theorem refutability_claim_false_on_or :
    (matchPatternInternal
        ⟨fun _ => ⟨4, 4, .single []⟩, fun _ => none, fun _ s => (0, s),
          fun _ => .Bool, fun _ => 0, .nil⟩ 10
        (.mk (.Or (.cons (.mk (.LiteralValue 1) (.Int 4 true))
          (.cons (.mk .Hole (.Int 4 true)) .nil))) (.Int 4 true))
        (.Local 20) false (some 0) ⟨[], [], 40, []⟩).map (·.1) = .ok false
    ∧ specClaimRefut .nil
        (.mk (.Or (.cons (.mk (.LiteralValue 1) (.Int 4 true))
          (.cons (.mk .Hole (.Int 4 true)) .nil))) (.Int 4 true)) = true :=
  ⟨rfl, rfl⟩

/-- Witness for `matchPatternInternal_refut`: the compiled refutability of
the or-pattern `1 | _` equals its bottom-up `codeRefut` value. -/
theorem matchPatternInternal_refut_witness :
    ∃ s', matchPatternInternal
        ⟨fun _ => ⟨4, 4, .single []⟩, fun _ => none, fun _ s => (0, s),
          fun _ => .Bool, fun _ => 0, .nil⟩ 10
        (.mk (.Or (.cons (.mk (.LiteralValue 1) (.Int 4 true))
          (.cons (.mk .Hole (.Int 4 true)) .nil))) (.Int 4 true))
        (.Local 20) false (some 0) ⟨[], [], 40, []⟩ = .ok (false, s')
      ∧ false = codeRefut .nil
        (.mk (.Or (.cons (.mk (.LiteralValue 1) (.Int 4 true))
          (.cons (.mk .Hole (.Int 4 true)) .nil))) (.Int 4 true)) :=
  ⟨⟨[.I32_Const 40 1, .Cmp .Eq (.Int 4 true) 0 20 40], [(40, 4)], 44, []⟩, rfl,
    matchPatternInternal_refut
      ⟨fun _ => ⟨4, 4, .single []⟩, fun _ => none, fun _ s => (0, s),
        fun _ => .Bool, fun _ => 0, .nil⟩ 10
      (.mk (.Or (.cons (.mk (.LiteralValue 1) (.Int 4 true))
        (.cons (.mk .Hole (.Int 4 true)) .nil))) (.Int 4 true))
      (.Local 20) false (some 0) ⟨[], [], 40, []⟩ false
      ⟨[.I32_Const 40 1, .Cmp .Eq (.Int 4 true) 0 20 40], [(40, 4)], 44, []⟩ rfl⟩

theorem ExtNoWrite.refl (r : Nat) (s : CompState) : ExtNoWrite r s s :=
  ⟨by simp, by simp, le_refl _⟩

theorem ExtNoWrite.len_le {r : Nat} {s s₂ : CompState} (h : ExtNoWrite r s s₂) :
    s.outBc.length ≤ s₂.outBc.length := by
  have := congrArg List.length h.1
  simp [List.length_take] at this
  omega

theorem ExtNoWrite.trans {r : Nat} {s₁ s₂ s₃ : CompState}
    (h₁ : ExtNoWrite r s₁ s₂) (h₂ : ExtNoWrite r s₂ s₃) : ExtNoWrite r s₁ s₃ := by
  have l12 := h₁.len_le
  have l23 := h₂.len_le
  obtain ⟨t1, w1, m1⟩ := h₁
  obtain ⟨t2, w2, m2⟩ := h₂
  have hsplit : s₃.outBc.drop s₁.outBc.length =
      (s₃.outBc.take s₂.outBc.length).drop s₁.outBc.length ++ s₃.outBc.drop s₂.outBc.length := by
    conv_lhs => rw [← List.take_append_drop s₂.outBc.length s₃.outBc]
    rw [List.drop_append_of_le_length]
    simp [List.length_take]
    omega
  refine ⟨?_, ?_, le_trans m1 m2⟩
  · have hstep : s₃.outBc.take s₁.outBc.length
        = (s₃.outBc.take s₂.outBc.length).take s₁.outBc.length := by
      rw [List.take_take, Nat.min_def, if_pos l12]
    rw [hstep, t2, t1]
  · intro i hi
    rw [hsplit] at hi
    rcases List.mem_append.mp hi with hi | hi
    · exact w1 i (by rwa [t2] at hi)
    · exact w2 i hi

theorem ExtNoWrite.push {r : Nat} {s : CompState} {i : Instr}
    (hw : writesTo i r = false) : ExtNoWrite r s (s.push i) := by
  refine ⟨?_, ?_, le_refl _⟩
  · simp [CompState.push, List.take_left]
  · intro j hj
    simp only [CompState.push] at hj
    rw [List.drop_left] at hj
    simp at hj
    exact hj ▸ hw

theorem stateSafe_push (r : Nat) (s : CompState) (i : Instr) :
    stateSafe r (s.push i) = stateSafe r s := rfl

theorem stateSafe_lt_top {r : Nat} {s : CompState} (h : stateSafe r s = true) :
    r < s.stackTop := by
  simp only [stateSafe, Bool.and_eq_true, decide_eq_true_eq] at h
  exact h.1

theorem stateSafe_locals {r : Nat} {s : CompState} (h : stateSafe r s = true) :
    ∀ p ∈ s.locals, p.2 ≠ r ∧ p.2 + POINTER_SIZE ≠ r := by
  simp only [stateSafe, Bool.and_eq_true, decide_eq_true_eq, List.all_eq_true] at h
  intro p hp
  have := h.2 p hp
  simpa using this

theorem stateSafe_mk {r : Nat} {s : CompState} (h1 : r < s.stackTop)
    (h2 : ∀ p ∈ s.locals, p.2 ≠ r ∧ p.2 + POINTER_SIZE ≠ r) : stateSafe r s = true := by
  simp only [stateSafe, Bool.and_eq_true, decide_eq_true_eq, List.all_eq_true]
  exact ⟨h1, fun p hp => by simpa using h2 p hp⟩

theorem allocLayout_nowrite {ctx : CompCtx} (hL : ∀ t, 1 ≤ (ctx.layoutOf t).align)
    {r : Nat} {s : CompState} (hS : stateSafe r s = true) (ty : Ty) :
    r < (s.allocLayout (ctx.layoutOf ty)).1 ∧
    ExtNoWrite r s (s.allocLayout (ctx.layoutOf ty)).2 ∧
    stateSafe r (s.allocLayout (ctx.layoutOf ty)).2 = true := by
  have hr := stateSafe_lt_top hS
  have hle := le_alignUp s.stackTop (hL ty)
  have hbase : (s.allocLayout (ctx.layoutOf ty)).1
      = alignUp s.stackTop (ctx.layoutOf ty).align := rfl
  have htop : (s.allocLayout (ctx.layoutOf ty)).2.stackTop
      = alignUp s.stackTop (ctx.layoutOf ty).align + (ctx.layoutOf ty).size := rfl
  have hloc : (s.allocLayout (ctx.layoutOf ty)).2.locals = s.locals := rfl
  have hbc : (s.allocLayout (ctx.layoutOf ty)).2.outBc = s.outBc := rfl
  refine ⟨?_, ⟨?_, ?_, ?_⟩, ?_⟩
  · rw [hbase]; omega
  · rw [hbc]; simp
  · intro i hi
    rw [hbc] at hi
    simp at hi
  · rw [htop]; omega
  · refine stateSafe_mk ?_ ?_
    · rw [htop]; omega
    · rw [hloc]; exact stateSafe_locals hS

theorem findOrAllocLocal_nowrite {ctx : CompCtx} (hL : ∀ t, 1 ≤ (ctx.layoutOf t).align)
    {r : Nat} {s : CompState} (hS : stateSafe r s = true) (lid : Nat) (ty : Ty) :
    (s.findOrAllocLocal ctx lid ty).1 ≠ r ∧
    (s.findOrAllocLocal ctx lid ty).1 + POINTER_SIZE ≠ r ∧
    ExtNoWrite r s (s.findOrAllocLocal ctx lid ty).2 ∧
    stateSafe r (s.findOrAllocLocal ctx lid ty).2 = true := by
  unfold CompState.findOrAllocLocal
  cases hf : s.locals.find? (fun p => p.1 == lid) with
  | some p =>
    simp only [hf]
    have hp := stateSafe_locals hS p (List.mem_of_find?_eq_some hf)
    exact ⟨hp.1, hp.2, ExtNoWrite.refl r s, hS⟩
  | none =>
    simp only [hf]
    obtain ⟨hlt, hext, hsafe⟩ := allocLayout_nowrite hL hS ty
    have htop2 : r < (s.allocLayout (ctx.layoutOf ty)).2.stackTop := stateSafe_lt_top hsafe
    refine ⟨by omega, by omega, ?_, ?_⟩
    · exact ⟨hext.1, hext.2.1, hext.2.2⟩
    · refine stateSafe_mk ?_ ?_
      · exact htop2
      · intro q hq
        simp only [List.mem_append, List.mem_singleton] at hq
        rcases hq with hq | hq
        · exact stateSafe_locals hsafe q hq
        · subst hq
          constructor <;> simp <;> omega

theorem nat_beq_false {a r : Nat} (h : a ≠ r) : (a == r) = false := by
  cases hbe : a == r
  · rfl
  · exact absurd (eq_of_beq hbe) h

theorem ExtNoWrite.pushOpt {r : Nat} {s : CompState} {o : Option Instr}
    (hw : ∀ i, o = some i → writesTo i r = false) : ExtNoWrite r s (s.pushOpt o) := by
  cases o with
  | none => exact ExtNoWrite.refl r s
  | some i => exact ExtNoWrite.push (hw i rfl)

theorem stateSafe_pushOpt (r : Nat) (s : CompState) (o : Option Instr) :
    stateSafe r (s.pushOpt o) = stateSafe r s := by
  cases o <;> rfl

theorem copy_nowrite {d src size r : Nat} (hd : d ≠ r) :
    ∀ i, bytecodeSelect.copy d src size = some i → writesTo i r = false := by
  intro i hi
  simp only [bytecodeSelect.copy] at hi
  split at hi
  · exact Option.noConfusion hi
  · injection hi with hi
    subst hi
    simpa [writesTo] using nat_beq_false hd

theorem copyFromPtr_nowrite {d ptr size r : Nat} {off : Int} (hd : d ≠ r) :
    ∀ i, bytecodeSelect.copyFromPtr d ptr size off = some i → writesTo i r = false := by
  intro i hi
  simp only [bytecodeSelect.copyFromPtr] at hi
  split at hi
  · exact Option.noConfusion hi
  · injection hi with hi
    subst hi
    simpa [writesTo] using nat_beq_false hd

theorem Slot.offsetBy_nat (x n : Nat) : Slot.offsetBy x (n : Int) = x + n := by
  unfold Slot.offsetBy
  omega

theorem PatternL.length_eq_zero : ∀ {l : PatternL}, l.length = 0 → l = .nil
  | .nil, _ => rfl
  | .cons p tl, h => by simp [PatternL.length] at h

theorem matchFieldsAux_true
    {mp : Pattern → Place → Bool → Option Nat → CompState → Except String (Bool × CompState)}
    {offsets : List Nat} {source : Place} {ca : Bool} {rs : Option Nat} :
    ∀ (fields : FieldPatL) (gaps : List Nat) (s : CompState)
      (g' : List Nat) (b' : Bool) (s' : CompState),
      matchFieldsAux mp offsets source ca rs fields gaps true s = .ok (g', b', s') → b' = true
  | .nil, gaps, s, g', b', s', h => by
    simp only [matchFieldsAux, pure, Except.pure] at h
    injection h with h1
    injection h1 with _ h2
    injection h2 with hb _
    exact hb.symm
  | .cons (.mk fi p) tl, gaps, s, g', b', s', h => by
    simp only [matchFieldsAux, bind, Except.bind, pure, Except.pure, Bool.true_or] at h
    split at h
    · split at h
      · simp at h
      · split at h
        · exact matchFieldsAux_true tl _ _ _ _ _ h
        · exact matchFieldsAux_true tl _ _ _ _ _ h
    · simp at h

theorem matchGroupAux_true
    {mp : Pattern → Place → Bool → Option Nat → CompState → Except String (Bool × CompState)}
    {placeOf : Nat → Place} {ca : Bool} {rs : Option Nat} :
    ∀ (pats : PatternL) (i : Nat) (gaps : List Nat) (s : CompState)
      (g' : List Nat) (b' : Bool) (s' : CompState),
      matchGroupAux mp placeOf ca rs pats i gaps true s = .ok (g', b', s') → b' = true
  | .nil, i, gaps, s, g', b', s', h => by
    simp only [matchGroupAux, pure, Except.pure] at h
    injection h with h1
    injection h1 with _ h2
    injection h2 with hb _
    exact hb.symm
  | .cons p tl, i, gaps, s, g', b', s', h => by
    simp only [matchGroupAux, bind, Except.bind, pure, Except.pure, Bool.true_or] at h
    split at h
    · simp at h
    · split at h
      · exact matchGroupAux_true tl _ _ _ _ _ _ h
      · exact matchGroupAux_true tl _ _ _ _ _ _ h

theorem matchFieldsAux_nowrite
    {mp : Pattern → Place → Bool → Option Nat → CompState → Except String (Bool × CompState)}
    (Hmp : MPNoWrite mp) {offsets : List Nat} {source : Place} {r : Nat} :
    ∀ (fields : FieldPatL) (gaps : List Nat) (s : CompState)
      (g' : List Nat) (s' : CompState),
      orFreeFields fields = true → stateSafe r s = true →
      matchFieldsAux mp offsets source false (some r) fields gaps false s = .ok (g', false, s') →
      ExtNoWrite r s s' ∧ stateSafe r s' = true ∧ g' = gaps
  | .nil, gaps, s, g', s', hor, hS, h => by
    simp only [matchFieldsAux, pure, Except.pure] at h
    injection h with h1
    injection h1 with hg h2
    injection h2 with _ hs
    cases hs
    exact ⟨ExtNoWrite.refl r s, hS, hg.symm⟩
  | .cons (.mk fi p) tl, gaps, s, g', s', hor, hS, h => by
    simp only [orFreeFields, Bool.and_eq_true] at hor
    simp only [matchFieldsAux, bind, Except.bind, pure, Except.pure, Bool.false_or] at h
    split at h
    · split at h
      · simp at h
      · next rr heq =>
        obtain ⟨b0, s0⟩ := rr
        cases b0 with
        | true =>
          split at h
          · have := matchFieldsAux_true tl _ _ _ _ _ h
            simp at this
          · have := matchFieldsAux_true tl _ _ _ _ _ h
            simp at this
        | false =>
          split at h
          · next hcond => simp at hcond
          · obtain ⟨hext, hS0⟩ := Hmp p _ r s s0 hor.1 hS heq
            obtain ⟨hext2, hS2, hg⟩ := matchFieldsAux_nowrite Hmp tl gaps s0 g' s' hor.2 hS0 h
            exact ⟨hext.trans hext2, hS2, hg⟩
    · simp at h

theorem matchGroupAux_nowrite
    {mp : Pattern → Place → Bool → Option Nat → CompState → Except String (Bool × CompState)}
    (Hmp : MPNoWrite mp) {placeOf : Nat → Place} {r : Nat} :
    ∀ (pats : PatternL) (i : Nat) (gaps : List Nat) (s : CompState)
      (g' : List Nat) (s' : CompState),
      orFreeL pats = true → stateSafe r s = true →
      matchGroupAux mp placeOf false (some r) pats i gaps false s = .ok (g', false, s') →
      ExtNoWrite r s s' ∧ stateSafe r s' = true ∧ g' = gaps
  | .nil, i, gaps, s, g', s', hor, hS, h => by
    simp only [matchGroupAux, pure, Except.pure] at h
    injection h with h1
    injection h1 with hg h2
    injection h2 with _ hs
    cases hs
    exact ⟨ExtNoWrite.refl r s, hS, hg.symm⟩
  | .cons p tl, i, gaps, s, g', s', hor, hS, h => by
    simp only [orFreeL, Bool.and_eq_true] at hor
    simp only [matchGroupAux, bind, Except.bind, pure, Except.pure, Bool.false_or] at h
    split at h
    · simp at h
    · next rr heq =>
      obtain ⟨b0, s0⟩ := rr
      cases b0 with
      | true =>
        split at h
        · have := matchGroupAux_true tl _ _ _ _ _ _ h
          simp at this
        · have := matchGroupAux_true tl _ _ _ _ _ _ h
          simp at this
      | false =>
        split at h
        · next hcond => simp at hcond
        · obtain ⟨hext, hS0⟩ := Hmp p _ r s s0 hor.1 hS heq
          obtain ⟨hext2, hS2, hg⟩ := matchGroupAux_nowrite Hmp tl (i + 1) gaps s0 g' s' hor.2 hS0 h
          exact ⟨hext.trans hext2, hS2, hg⟩

theorem matchPatternInternal_nowrite (ctx : CompCtx) (hL : ∀ t, 1 ≤ (ctx.layoutOf t).align) :
    ∀ (fuel : Nat) (p : Pattern) (pl : Place) (r : Nat) (s s₂ : CompState),
      orFree p = true → stateSafe r s = true →
      matchPatternInternal ctx fuel p pl false (some r) s = .ok (false, s₂) →
      ExtNoWrite r s s₂ ∧ stateSafe r s₂ = true := by
  intro fuel
  induction fuel with
  | zero =>
    intro p pl r s s₂ _ _ h
    simp [matchPatternInternal, throw, throwThe, MonadExceptOf.throw] at h
  | succ fuel IH =>
    have H : MPNoWrite (fun p pl ca rs st => matchPatternInternal ctx fuel p pl ca rs st) :=
      fun p pl r s s₂ hor hS h => IH p pl r s s₂ hor hS h
    intro p pl r s s₂ hor hS h
    obtain ⟨kind, ty⟩ := p
    cases kind with
    | Hole =>
      simp only [matchPatternInternal, pure, Except.pure] at h
      injection h with h1
      injection h1 with _ hs
      cases hs
      exact ⟨ExtNoWrite.refl r s, hS⟩
    | LocalBinding lid mode sub =>
      simp only [orFree, orFreeKind] at hor
      simp only [matchPatternInternal] at h
      obtain ⟨s1, hA, h⟩ := except_bind_ok h
      have hstep : ExtNoWrite r s s1 ∧ stateSafe r s1 = true := by
        split at hA
        · split at hA
          · simp only [pure, Except.pure] at hA
            injection hA with hA1
            cases hA1
            obtain ⟨hne, _, hext, hsafe⟩ := findOrAllocLocal_nowrite hL hS lid (ctx.applySubs ty)
            exact ⟨hext.trans (ExtNoWrite.pushOpt (copy_nowrite hne)),
              (stateSafe_pushOpt _ _ _).trans hsafe⟩
          · next hcond => simp at hcond
        · split at hA
          · simp [throw, throwThe, MonadExceptOf.throw] at hA
          · simp only [pure, Except.pure] at hA
            injection hA with hA1
            cases hA1
            obtain ⟨hne, _, hext, hsafe⟩ := findOrAllocLocal_nowrite hL hS lid (ctx.applySubs ty)
            exact ⟨hext.trans (ExtNoWrite.pushOpt (copyFromPtr_nowrite hne)),
              (stateSafe_pushOpt _ _ _).trans hsafe⟩
        · simp only [pure, Except.pure] at hA
          injection hA with hA1
          cases hA1
          obtain ⟨hne, _, hext, hsafe⟩ := findOrAllocLocal_nowrite hL hS lid (ctx.applySubs ty)
          refine ⟨hext.trans (ExtNoWrite.push ?_), (stateSafe_push _ _ _).trans hsafe⟩
          simpa [writesTo] using nat_beq_false hne
        · split at hA
          · simp [throw, throwThe, MonadExceptOf.throw] at hA
          · simp only [pure, Except.pure] at hA
            injection hA with hA1
            cases hA1
            obtain ⟨hne, _, hext, hsafe⟩ := findOrAllocLocal_nowrite hL hS lid (ctx.applySubs ty)
            refine ⟨hext.trans (ExtNoWrite.push ?_), (stateSafe_push _ _ _).trans hsafe⟩
            simpa [writesTo] using nat_beq_false hne
      cases sub with
      | some subp =>
        simp only at h
        simp only [orFreeOPat] at hor
        obtain ⟨hext2, hsafe2⟩ := IH subp pl r s1 s₂ hor hstep.2 h
        exact ⟨hstep.1.trans hext2, hsafe2⟩
      | none =>
        simp only [pure, Except.pure] at h
        injection h with h1
        injection h1 with _ hs
        cases hs
        exact hstep
    | Struct fields =>
      simp only [orFree, orFreeKind] at hor
      simp only [matchPatternInternal] at h
      obtain ⟨offsets, _, h⟩ := except_bind_ok h
      obtain ⟨rr, hr, h⟩ := except_bind_ok h
      obtain ⟨g, br, sr⟩ := rr
      simp only [pure, Except.pure] at h
      injection h with h1
      injection h1 with hb hs
      cases hb
      obtain ⟨hext, hsafe, hg⟩ := matchFieldsAux_nowrite H fields [] s g sr hor hS hr
      cases hg
      cases hs
      exact ⟨hext, hsafe⟩
    | Enum fields vi =>
      simp only [matchPatternInternal, bind, Except.bind, throw, throwThe,
        MonadExceptOf.throw, pure, Except.pure] at h
      iterate 12 (all_goals try split at h)
      all_goals first
        | exact Except.noConfusion h
        | (injection h with h1
           injection h1 with hb _
           exact Bool.noConfusion hb)
    | Or options =>
      simp only [orFree, orFreeKind] at hor
      exact Bool.noConfusion hor
    | DeRef subp =>
      simp only [orFree, orFreeKind] at hor
      simp only [matchPatternInternal] at h
      cases pl with
      | Local slot =>
        exact IH subp _ r s s₂ hor hS h
      | Ptr pslot poff pk =>
        simp only at h
        obtain ⟨hlt, hext, hsafe⟩ := allocLayout_nowrite hL hS (ctx.applySubs ty)
        have hne : (s.allocLayout (ctx.layoutOf (ctx.applySubs ty))).1 ≠ r := by omega
        obtain ⟨hext2, hsafe2⟩ := IH subp _ r _ s₂ hor
          ((stateSafe_pushOpt _ _ _).trans hsafe) h
        exact ⟨(hext.trans (ExtNoWrite.pushOpt (copyFromPtr_nowrite hne))).trans hext2, hsafe2⟩
    | LiteralValue n =>
      simp only [matchPatternInternal] at h
      exact Bool.noConfusion (matchLiteralValue_ok h)
    | NamedConst cid =>
      simp only [matchPatternInternal] at h
      exact Bool.noConfusion (matchNamedConst_ok h)
    | LiteralBytes addr len =>
      simp only [matchPatternInternal] at h
      exact Bool.noConfusion (matchLiteralBytes_ok h)
    | Range start stop inc =>
      simp only [matchPatternInternal] at h
      exact Bool.noConfusion (matchRange_ok h)
    | Error msg =>
      simp [matchPatternInternal, throw, throwThe, MonadExceptOf.throw] at h
    | Slice startPats mid endPats =>
      simp only [orFree, orFreeKind, Bool.and_eq_true] at hor
      obtain ⟨⟨horS, horM⟩, horE⟩ := hor
      simp only [matchPatternInternal] at h
      split at h
      · next elemTy arrayLen heq =>
        obtain ⟨r1, hr1, h⟩ := except_bind_ok h
        obtain ⟨g1, b1, s1⟩ := r1
        obtain ⟨r2, hr2, h⟩ := except_bind_ok h
        obtain ⟨g2, b2, s2⟩ := r2
        obtain ⟨r3, hr3, h⟩ := except_bind_ok h
        obtain ⟨g3, b3, s3⟩ := r3
        simp only [pure, Except.pure] at h
        injection h with h1
        injection h1 with hb hs
        cases hb
        cases b2 with
        | true => exact Bool.noConfusion (matchGroupAux_true endPats 0 g2 s2 _ _ _ hr3)
        | false =>
          cases b1 with
          | true =>
            cases mid with
            | none =>
              simp only [pure, Except.pure] at hr2
              injection hr2 with h4
              injection h4 with _ h5
              injection h5 with hb5 _
              exact Bool.noConfusion hb5
            | some midPat =>
              obtain ⟨u, _, hr2⟩ := except_bind_ok hr2
              obtain ⟨rm, hrm, hr2⟩ := except_bind_ok hr2
              split at hr2 <;>
                (simp only [pure, Except.pure] at hr2
                 injection hr2 with h4
                 injection h4 with _ h5
                 injection h5 with hb5 _
                 simp at hb5)
          | false =>
            obtain ⟨hextS, hsafeS, hgS⟩ := matchGroupAux_nowrite H startPats 0 [] s g1 s1 horS hS hr1
            cases hgS
            have hmid : ExtNoWrite r s1 s2 ∧ stateSafe r s2 = true ∧ g2 = [] := by
              cases mid with
              | none =>
                simp only [pure, Except.pure] at hr2
                injection hr2 with h4
                injection h4 with hg5 h5
                injection h5 with _ hs5
                cases hs5
                exact ⟨ExtNoWrite.refl r s1, hsafeS, hg5.symm⟩
              | some midPat =>
                obtain ⟨u, _, hr2⟩ := except_bind_ok hr2
                obtain ⟨rm, hrm, hr2⟩ := except_bind_ok hr2
                obtain ⟨bm, sm⟩ := rm
                cases bm with
                | true =>
                  split at hr2 <;>
                    (simp only [pure, Except.pure] at hr2
                     injection hr2 with h4
                     injection h4 with hg5 h5
                     injection h5 with hb5 hs5
                     simp at hb5)
                | false =>
                  split at hr2
                  · next hcond => simp at hcond
                  · simp only [pure, Except.pure] at hr2
                    injection hr2 with h4
                    injection h4 with hg5 h5
                    injection h5 with _ hs5
                    cases hs5
                    have horMid : orFree midPat = true := by simpa [orFreeOPat] using horM
                    obtain ⟨he, hsf⟩ := IH midPat _ r s1 s2 horMid hsafeS hrm
                    exact ⟨he, hsf, hg5.symm⟩
            obtain ⟨hextM, hsafeM, hgM⟩ := hmid
            cases hgM
            obtain ⟨hextE, hsafeE, hgE⟩ :=
              matchGroupAux_nowrite H endPats 0 [] s2 g3 s3 horE hsafeM hr3
            cases hgE
            cases hs
            exact ⟨(hextS.trans hextM).trans hextE, hsafeE⟩
      · next elemTy heq =>
        cases pl with
        | Local slot => simp [throw, throwThe, MonadExceptOf.throw] at h
        | Ptr pslot poff pk =>
          simp only at h
          split at h
          · simp [throw, throwThe, MonadExceptOf.throw] at h
          · split at h
            · simp [throw, throwThe, MonadExceptOf.throw] at h
            · obtain ⟨gs, hgs, h⟩ := except_bind_ok h
              obtain ⟨r1, hr1, h⟩ := except_bind_ok h
              obtain ⟨s1, hs1, h⟩ := except_bind_ok h
              obtain ⟨r2, hr2, h⟩ := except_bind_ok h
              simp only [pure, Except.pure] at h
              injection h with h4
              injection h4 with hb4 hs4
              have hb4' : (decide (0 < startPats.length + endPats.length)
                  || !mid.isSome) = false := hb4
              rw [Bool.or_eq_false_iff] at hb4'
              obtain ⟨hd, hm⟩ := hb4'
              have hlen0 : startPats.length + endPats.length = 0 := by
                have := of_decide_eq_false hd
                omega
              have hmidSome : mid.isSome = true := by
                cases hmi : mid.isSome
                · rw [hmi] at hm
                  exact absurd hm (by simp)
                · rfl
              have hsp : startPats = .nil := PatternL.length_eq_zero (by omega)
              have hep : endPats = .nil := PatternL.length_eq_zero (by omega)
              subst hsp
              subst hep
              cases mid with
              | none => simp [OPat.isSome] at hmidSome
              | some midPat =>
                obtain ⟨gsl, gss⟩ := gs
                injection hgs with h5
                injection h5 with hg5 hs5
                cases hg5
                cases hs5
                obtain ⟨g1l, b1, s1b⟩ := r1
                simp only [matchGroupAux, pure, Except.pure] at hr1
                injection hr1 with h6
                injection h6 with hg6 h7
                injection h7 with hb6 hs6
                cases hg6
                cases hb6
                cases hs6
                simp only at hs1
                have hstep1 : ExtNoWrite r s s1 ∧ stateSafe r s1 = true := by
                  split at hs1
                  · simp only [pure, Except.pure] at hs1
                    injection hs1 with h8
                    cases h8
                    exact ⟨ExtNoWrite.refl r s, hS⟩
                  · rename_i x lid bmode msub heq2
                    split at hs1
                    · simp [throw, throwThe, MonadExceptOf.throw] at hs1
                    · obtain ⟨u2, _, hs1⟩ := except_bind_ok hs1
                      simp only [pure, Except.pure] at hs1
                      injection hs1 with h8
                      cases h8
                      obtain ⟨hne, hne2, hext, hsafe⟩ :=
                        findOrAllocLocal_nowrite hL hS lid (ctx.applySubs midPat.ty)
                      refine ⟨(hext.trans (ExtNoWrite.push ?_)).trans (ExtNoWrite.push ?_), ?_⟩
                      · simpa [writesTo] using nat_beq_false hne
                      · rw [Slot.offsetBy_nat]
                        simpa [writesTo] using nat_beq_false hne2
                      · exact ((stateSafe_push _ _ _).trans ((stateSafe_push _ _ _).trans hsafe))
                  · simp only [pure, Except.pure] at hs1
                    injection hs1 with h8
                    cases h8
                    exact ⟨ExtNoWrite.refl r s, hS⟩
                obtain ⟨g2l, b2, s2b⟩ := r2
                injection hr2 with h9
                injection h9 with hg9 h10
                injection h10 with hb9 hs9
                cases hg9
                cases hb9
                cases hs9
                cases hs4
                exact hstep1
      · simp [throw, throwThe, MonadExceptOf.throw] at h

/-- C5 (amended): for an or-free pattern that the pattern-match entry point
reports irrefutable (`refutable == false`), every instruction the internal
matcher emitted leaves the supplied result slot untouched; the only
emitted write to the slot is the final constant-`true` store
`I8_Const(result_slot, 1)` that `match_pattern_place` itself appends,
exhibited explicitly in the conclusion.  Hypotheses: layouts have positive
alignment, and the result slot lies below the allocation watermark and off
the bound locals (as when freshly allocated by the caller). -/
theorem match_pattern_place_nowrite (ctx : CompCtx) (hL : ∀ t, 1 ≤ (ctx.layoutOf t).align)
    (fuel : Nat) (pat : Pattern) (source : Place) (r : Nat) (s s₂ : CompState)
    (hor : orFree pat = true) (hS : stateSafe r s = true)
    (h : matchPatternInternal ctx fuel pat source false (some r) s = .ok (false, s₂)) :
    match_pattern_place ctx fuel pat source (some r) s = .ok (s₂.push (.I8_Const r 1)) ∧
    (∀ i ∈ s₂.outBc.drop s.outBc.length, writesTo i r = false) ∧
    s₂.outBc.take s.outBc.length = s.outBc := by
  obtain ⟨⟨htake, hdrop, _⟩, _⟩ :=
    matchPatternInternal_nowrite ctx hL fuel pat source r s s₂ hor hS h
  refine ⟨?_, hdrop, htake⟩
  simp [match_pattern_place, h, bind, Except.bind, pure, Except.pure]

/-- Witness for `match_pattern_place_nowrite`: compiling the irrefutable
binding pattern `x : i32` against local slot 20 with result slot 0 copies
the value into the fresh local slot 40 (`MovSS`, which does not write
slot 0) and then the entry point appends the single `I8_Const(0, 1)`. -/
theorem match_pattern_place_nowrite_witness :
    (∀ t, 1 ≤ (((⟨fun _ => ⟨4, 4, .single []⟩, fun _ => none, fun _ s => (0, s),
        fun _ => .Bool, fun _ => 0, .nil⟩ : CompCtx)).layoutOf t).align) ∧
    orFree (.mk (.LocalBinding 5 .Value .none) (.Int 4 true)) = true ∧
    stateSafe 0 ⟨[], [], 40, []⟩ = true ∧
    matchPatternInternal
        ⟨fun _ => ⟨4, 4, .single []⟩, fun _ => none, fun _ s => (0, s),
          fun _ => .Bool, fun _ => 0, .nil⟩ 2
        (.mk (.LocalBinding 5 .Value .none) (.Int 4 true)) (.Local 20) false (some 0)
        ⟨[], [], 40, []⟩
      = .ok (false, ⟨[.MovSS 4 40 20], [(40, 4)], 44, [(5, 40)]⟩) ∧
    match_pattern_place
        ⟨fun _ => ⟨4, 4, .single []⟩, fun _ => none, fun _ s => (0, s),
          fun _ => .Bool, fun _ => 0, .nil⟩ 2
        (.mk (.LocalBinding 5 .Value .none) (.Int 4 true)) (.Local 20) (some 0)
        ⟨[], [], 40, []⟩
      = .ok ⟨[.MovSS 4 40 20, .I8_Const 0 1], [(40, 4)], 44, [(5, 40)]⟩ ∧
    ∀ i ∈ [Instr.MovSS 4 40 20], writesTo i 0 = false :=
  ⟨fun _ => by show (1 : Nat) ≤ 4; decide, rfl, by decide, rfl,
    (match_pattern_place_nowrite
      ⟨fun _ => ⟨4, 4, .single []⟩, fun _ => none, fun _ s => (0, s),
        fun _ => .Bool, fun _ => 0, .nil⟩ (fun _ => by show (1 : Nat) ≤ 4; decide) 2
      (.mk (.LocalBinding 5 .Value .none) (.Int 4 true)) (.Local 20) 0
      ⟨[], [], 40, []⟩ ⟨[.MovSS 4 40 20], [(40, 4)], 44, [(5, 40)]⟩
      rfl (by decide) rfl).1,
    by decide⟩

/-- C5 counterexample: the or-pattern `1 | _` on local slot 20 with result
slot 0 is reported irrefutable (`refutable == false`), yet the emitted code
writes the result slot twice: the literal option's comparison
`Cmp(dst = 0, ...)` and the entry point's final `I8_Const(0, 1)`. -/
theorem result_slot_written_when_irrefutable :
    matchPatternInternal
        ⟨fun _ => ⟨4, 4, .single []⟩, fun _ => none, fun _ s => (0, s),
          fun _ => .Bool, fun _ => 0, .nil⟩ 10
        (.mk (.Or (.cons (.mk (.LiteralValue 1) (.Int 4 true))
          (.cons (.mk .Hole (.Int 4 true)) .nil))) (.Int 4 true))
        (.Local 20) false (some 0) ⟨[], [], 40, []⟩
      = .ok (false, ⟨[.I32_Const 40 1, .Cmp .Eq (.Int 4 true) 0 20 40], [(40, 4)], 44, []⟩) ∧
    match_pattern_place
        ⟨fun _ => ⟨4, 4, .single []⟩, fun _ => none, fun _ s => (0, s),
          fun _ => .Bool, fun _ => 0, .nil⟩ 10
        (.mk (.Or (.cons (.mk (.LiteralValue 1) (.Int 4 true))
          (.cons (.mk .Hole (.Int 4 true)) .nil))) (.Int 4 true))
        (.Local 20) (some 0) ⟨[], [], 40, []⟩
      = .ok ⟨[.I32_Const 40 1, .Cmp .Eq (.Int 4 true) 0 20 40, .I8_Const 0 1], [(40, 4)], 44, []⟩ ∧
    writesTo (.Cmp .Eq (.Int 4 true) 0 20 40) 0 = true ∧
    writesTo (.I8_Const 0 1) 0 = true :=
  ⟨rfl, rfl, rfl, rfl⟩

/-- C4: `func_mono`/`alloc_function` themselves perform no concreteness
check; the precondition is established at the call sites.  First conjunct
(the item call sites, which pass `func_ref.subs` extracted from an
already-substituted `FunctionDef` type): substituting a `substOk` type
with the enclosing function's concrete substitutions yields a
`FunctionDef` whose substitution list is fully concrete.  Second conjunct
(the closure call site asserts `subs.is_concrete()` directly): `func_mono`
called with a concrete list preserves the invariant that every allocated
`Function` handle records a fully concrete substitution list. -/
theorem func_mono_concrete (cache : MonoCache) (arena : FuncArena)
    (subs₀ : SubL) (h0 : subs₀.isConcrete = true) :
    (∀ (t : Ty) (id : Nat) (fsubs : SubL), Ty.substOk t subs₀ = true →
       Ty.sub t subs₀ = .FunctionDef id fsubs → fsubs.isConcrete = true) ∧
    (∀ (subs : SubL), subs.isConcrete = true →
       (∀ s ∈ arena.funcs, s.isConcrete = true) →
       ∀ s ∈ (Item.func_mono cache arena subs).2.2.funcs, s.isConcrete = true) := by
  constructor
  · intro t id fsubs hok heq
    have := Ty.sub_concrete t subs₀ h0 hok
    rw [heq] at this
    simpa [Ty.isConcrete] using this
  · intro subs hsub hinv
    unfold Item.func_mono
    cases hfind : cache.entries.find? (fun e => SubL.beq e.1 subs) with
    | some e =>
      simp only [hfind]
      exact hinv
    | none =>
      simp only [hfind, VM.alloc_function]
      intro s hs
      simp only [List.mem_append, List.mem_singleton] at hs
      rcases hs with hs | hs
      · exact hinv s hs
      · exact hs ▸ hsub

/-- Witness for `func_mono_concrete`: substituting the generic function
type `FunctionDef 7 [Param 0]` with the concrete list `[Type Bool]` yields
concrete subs `[Type Bool]`, and allocating through `func_mono` with them
leaves every arena entry concrete. -/
theorem func_mono_concrete_witness :
    (SubL.cons (.Type .Bool) .nil).isConcrete = true ∧
    Ty.substOk (.FunctionDef 7 (.cons (.Type (.Param 0)) .nil))
      (.cons (.Type .Bool) .nil) = true ∧
    Ty.sub (.FunctionDef 7 (.cons (.Type (.Param 0)) .nil)) (.cons (.Type .Bool) .nil)
      = .FunctionDef 7 (.cons (.Type .Bool) .nil) ∧
    (SubL.cons (.Type .Bool) .nil).isConcrete = true ∧
    (∀ s ∈ (Item.func_mono ⟨[]⟩ ⟨[]⟩ (SubL.cons (.Type .Bool) .nil)).2.2.funcs,
      s.isConcrete = true) :=
  ⟨rfl,
    by simp [Ty.substOk, SubL.substOk, Subst.substOk, SubL.get?, Ty.isConcrete],
    by simp [Ty.sub, SubL.sub, Subst.subst, SubL.get?],
    (func_mono_concrete ⟨[]⟩ ⟨[]⟩ (.cons (.Type .Bool) .nil) rfl).1
      (.FunctionDef 7 (.cons (.Type (.Param 0)) .nil)) 7 (.cons (.Type .Bool) .nil)
      (by simp [Ty.substOk, SubL.substOk, Subst.substOk, SubL.get?, Ty.isConcrete])
      (by simp [Ty.sub, SubL.sub, Subst.subst, SubL.get?]),
    (func_mono_concrete ⟨[]⟩ ⟨[]⟩ (.cons (.Type .Bool) .nil) rfl).2
      (.cons (.Type .Bool) .nil) rfl (by simp)⟩

theorem bind_option_loop (check : TraitImplE → Except String (Option SubL))
    (candidate : TraitImplE) (rest : List TraitImplE) :
    (do
      let builtinRes ← (do
        match ← check candidate with
        | some traitSubs => pure (some (candidate, traitSubs))
        | none => pure (none : Option (TraitImplE × SubL)))
      match builtinRes with
      | some r => pure (some r)
      | none => findImplLoop check rest)
      = findImplLoop check (candidate :: rest) := by
  simp only [findImplLoop, bind, Except.bind]
  cases hc : check candidate with
  | error e => rfl
  | ok o => cases o <;> rfl

theorem findImplLoop_first (check : TraitImplE → Except String (Option SubL)) :
    ∀ (l : List TraitImplE) (c : TraitImplE) (s : SubL),
      findImplLoop check l = .ok (some (c, s)) →
      ∃ pre post, l = pre ++ c :: post ∧ check c = .ok (some s) ∧
        ∀ cj ∈ pre, check cj = .ok none
  | [], c, s, h => by
    simp [findImplLoop, pure, Except.pure] at h
  | hd :: tl, c, s, h => by
    simp only [findImplLoop, bind, Except.bind] at h
    split at h
    · exact Except.noConfusion h
    · next r heq =>
      cases r with
      | some s0 =>
        simp only [pure, Except.pure] at h
        injection h with h1
        injection h1 with h2
        injection h2 with h3 h4
        subst h3
        subst h4
        exact ⟨[], tl, rfl, heq, by simp⟩
      | none =>
        obtain ⟨pre, post, hl, hcheck, hpre⟩ := findImplLoop_first check tl c s h
        refine ⟨hd :: pre, post, by rw [hl]; rfl, hcheck, ?_⟩
        intro cj hj
        rcases List.mem_cons.mp hj with hj | hj
        · rw [hj]
          exact heq
        · exact hpre cj hj

theorem findImplLoop_none_iff (check : TraitImplE → Except String (Option SubL)) :
    ∀ (l : List TraitImplE),
      findImplLoop check l = .ok none ↔ ∀ c ∈ l, check c = .ok none
  | [] => by simp [findImplLoop, pure, Except.pure]
  | hd :: tl => by
    simp only [findImplLoop, bind, Except.bind]
    split
    · next e heq =>
      constructor
      · intro h
        exact Except.noConfusion h
      · intro h
        have h2 := h hd (by simp)
        rw [heq] at h2
        exact Except.noConfusion h2
    · next r heq =>
      cases r with
      | some s0 =>
        constructor
        · intro h
          simp only [pure, Except.pure] at h
          injection h with h1
          exact Option.noConfusion h1
        · intro h
          have h2 := h hd (by simp)
          rw [heq] at h2
          injection h2 with h1
          exact Option.noConfusion h1
      | none =>
        constructor
        · intro h c hcm
          rcases List.mem_cons.mp hcm with hcm | hcm
          · rw [hcm]
            exact heq
          · exact ((findImplLoop_none_iff check tl).mp h) c hcm
        · intro h
          exact (findImplLoop_none_iff check tl).mpr (fun c hcm => h c (by simp [hcm]))

/-- C7: trait impl selection is order-based and first-success.  One
unfolding of `find_trait_impl` is exactly the first-success loop over the
synthetic builtin candidate (when the trait is tagged builtin and produces
one) followed by the declared impl list, all checked by the same
`check_trait_impl`; a selected candidate is the first of that candidate
order whose check succeeds (every earlier candidate failed), and `none` is
returned exactly when every candidate fails.  Determinism is by
construction: the selection is a function of the impl list and the query. -/
theorem find_trait_impl_ordered (env : TraitEnv) (fuel traitId : Nat) (forTys : SubL) :
    (find_trait_impl env (fuel + 1) traitId forTys
      = findImplLoop
          (check_trait_impl (Item.trait_has_impl env fuel)
            (Item.resolve_associated_ty env fuel) forTys)
          (builtinCandidate env traitId forTys ++ (env traitId).implList)) ∧
    (∀ (check : TraitImplE → Except String (Option SubL)) (l : List TraitImplE)
       (c : TraitImplE) (s : SubL),
       findImplLoop check l = .ok (some (c, s)) →
       ∃ pre post, l = pre ++ c :: post ∧ check c = .ok (some s) ∧
         ∀ cj ∈ pre, check cj = .ok none) ∧
    (∀ (check : TraitImplE → Except String (Option SubL)) (l : List TraitImplE),
       findImplLoop check l = .ok none ↔ ∀ c ∈ l, check c = .ok none) := by
  refine ⟨?_, fun check l c s h => findImplLoop_first check l c s h,
    fun check l => findImplLoop_none_iff check l⟩
  have h1 : Item.trait_has_impl env fuel = (fun tid tys => do
      match ← find_trait_impl env fuel tid tys with
      | some _ => pure true
      | none => pure false) := rfl
  have h2 : Item.resolve_associated_ty env fuel = (fun tid mi tys => do
      match ← find_trait_impl env fuel tid tys with
      | some r =>
        match r.1.assocValues.get? mi with
        | some (some ty) => pure (Ty.sub ty r.2)
        | _ => throw "failed to find associated type"
      | none => throw "failed to resolve associated type") := rfl
  rw [h1, h2]
  cases hb : (env traitId).builtin with
  | none =>
    simp only [find_trait_impl, builtinCandidate, hb]
    simp [bind, Except.bind, pure, Except.pure]
  | some fc =>
    cases hfc : fc forTys with
    | none =>
      simp only [find_trait_impl, builtinCandidate, hb, hfc]
      simp [bind, Except.bind, pure, Except.pure]
    | some candidate =>
      simp only [find_trait_impl, builtinCandidate, hb, hfc, List.cons_append,
        List.nil_append]
      exact bind_option_loop _ candidate (env traitId).implList

/-- Witness for `find_trait_impl_ordered`: in a trait with two declared
impls - `impl Trait for char` and the generic `impl<T> Trait for T` -
resolving for `bool` selects the second impl with substitutions
`[Type bool]`: the loop equals the unfolded resolution, and the selected
candidate is the first success, the non-matching `char` impl having been
tried and rejected before it. -/
theorem find_trait_impl_ordered_witness :
    find_trait_impl exTraitEnv 2 0 (.cons (.Type .Bool) .nil)
      = findImplLoop
          (check_trait_impl (Item.trait_has_impl exTraitEnv 1)
            (Item.resolve_associated_ty exTraitEnv 1) (.cons (.Type .Bool) .nil))
          (builtinCandidate exTraitEnv 0 (.cons (.Type .Bool) .nil)
            ++ (exTraitEnv 0).implList) ∧
    findImplLoop (check_trait_impl (Item.trait_has_impl exTraitEnv 1)
        (Item.resolve_associated_ty exTraitEnv 1) (.cons (.Type .Bool) .nil))
      [exImplA, exImplB] = .ok (some (exImplB, .cons (.Type .Bool) .nil)) ∧
    ∃ pre post, [exImplA, exImplB] = pre ++ exImplB :: post ∧
      check_trait_impl (Item.trait_has_impl exTraitEnv 1)
        (Item.resolve_associated_ty exTraitEnv 1) (.cons (.Type .Bool) .nil) exImplB
        = .ok (some (.cons (.Type .Bool) .nil)) ∧
      ∀ cj ∈ pre, check_trait_impl (Item.trait_has_impl exTraitEnv 1)
        (Item.resolve_associated_ty exTraitEnv 1) (.cons (.Type .Bool) .nil) cj
        = .ok none :=
  ⟨(find_trait_impl_ordered exTraitEnv 1 0 (.cons (.Type .Bool) .nil)).1,
    by
      simp [findImplLoop, check_trait_impl, trait_match, subs_match, type_match, Ty.beq,
        Ty.isConcrete, SubL.fromSummary, SubL.fromSummaryAux, SubMap.set, SubMap.applyTo,
        SubL.setAt, SubL.isConcrete, Subst.isConcrete, bind, Except.bind, pure, Except.pure,
        exImplA, exImplB, exTraitEnv, checkBounds, Item.trait_has_impl,
        Item.resolve_associated_ty, Ty.inMatchFalseSet, Subst.beq, SubMap.assertEmpty,
        List.foldlM],
    (find_trait_impl_ordered exTraitEnv 1 0 (.cons (.Type .Bool) .nil)).2.1
      (check_trait_impl (Item.trait_has_impl exTraitEnv 1)
        (Item.resolve_associated_ty exTraitEnv 1) (.cons (.Type .Bool) .nil))
      [exImplA, exImplB] exImplB (.cons (.Type .Bool) .nil)
      (by
        simp [findImplLoop, check_trait_impl, trait_match, subs_match, type_match, Ty.beq,
          Ty.isConcrete, SubL.fromSummary, SubL.fromSummaryAux, SubMap.set, SubMap.applyTo,
          SubL.setAt, SubL.isConcrete, Subst.isConcrete, bind, Except.bind, pure, Except.pure,
          exImplA, exImplB, exTraitEnv, checkBounds, Item.trait_has_impl,
          Item.resolve_associated_ty, Ty.inMatchFalseSet, Subst.beq, SubMap.assertEmpty,
          List.foldlM])⟩

end Skitter
